import Mathlib

/-!
Verification development for a 2D position-based-dynamics soft-body engine.

The definitions below are a shallow embedding of the engine's core
(`Vec2`, `Mat2`, `Particle`, `Spring`, `ShapeMatchingConstraint`,
`SoftBody`, `Simulation`) with `f64` modelled as `ℝ` and the particle
store as a `List Particle` mutated by index.  Machine epsilon
(`f64::EPSILON = 2⁻⁵²`) is modelled exactly.
-/

namespace PBD

noncomputable section

/-- Machine epsilon of `f64`, `2⁻⁵²`. -/
def EPSILON : ℝ := 1 / 2 ^ 52

/-- 2D vector with real components, modelling `Vec2 { x: f64, y: f64 }`. -/
@[ext]
structure Vec2 where
  x : ℝ
  y : ℝ

instance : Add Vec2 := ⟨fun a b => ⟨a.x + b.x, a.y + b.y⟩⟩

instance : Sub Vec2 := ⟨fun a b => ⟨a.x - b.x, a.y - b.y⟩⟩

instance : HMul Vec2 ℝ Vec2 := ⟨fun v c => ⟨v.x * c, v.y * c⟩⟩

@[simp] theorem Vec2.add_x (a b : Vec2) : (a + b).x = a.x + b.x := rfl

@[simp] theorem Vec2.add_y (a b : Vec2) : (a + b).y = a.y + b.y := rfl

@[simp] theorem Vec2.sub_x (a b : Vec2) : (a - b).x = a.x - b.x := rfl

@[simp] theorem Vec2.sub_y (a b : Vec2) : (a - b).y = a.y - b.y := rfl

@[simp] theorem Vec2.smul_x (v : Vec2) (c : ℝ) : (v * c).x = v.x * c := rfl

@[simp] theorem Vec2.smul_y (v : Vec2) (c : ℝ) : (v * c).y = v.y * c := rfl

/-- Length of a vector, modelling `Vec2::length` (`hypot`). -/
def Vec2.length (v : Vec2) : ℝ := Real.sqrt (v.x * v.x + v.y * v.y)

/-- Squared length, modelling `Vec2::length_squared`. -/
def Vec2.length_squared (v : Vec2) : ℝ := v.x * v.x + v.y * v.y

/-- Normalization with the zero-vector guard, modelling `Vec2::normalize`. -/
def Vec2.normalize (v : Vec2) : Vec2 :=
  if v.length > EPSILON then v * (1 / v.length) else ⟨0, 0⟩

theorem Vec2.length_nonneg (v : Vec2) : 0 ≤ v.length := Real.sqrt_nonneg _

theorem Vec2.sq_length (v : Vec2) : v.length * v.length = v.x * v.x + v.y * v.y := by
  have h : 0 ≤ v.x * v.x + v.y * v.y := by nlinarith [sq_nonneg v.x, sq_nonneg v.y]
  simpa [Vec2.length] using Real.mul_self_sqrt h

/-- 2×2 matrix stored as two column vectors, modelling `Mat2 { c1, c2 }`. -/
@[ext]
structure Mat2 where
  c1 : Vec2
  c2 : Vec2

/-- Matrix–vector product, modelling `Mat2::mul_vec`. -/
def Mat2.mul_vec (m : Mat2) (v : Vec2) : Vec2 :=
  ⟨m.c1.x * v.x + m.c2.x * v.y, m.c1.y * v.x + m.c2.y * v.y⟩

/-- The vector `x = (a.c1.x + a.c2.y, a.c1.y - a.c2.x)` used by `polar_decomposition`. -/
def Mat2.polarX (m : Mat2) : Vec2 := ⟨m.c1.x + m.c2.y, m.c1.y - m.c2.x⟩

/-- The vector `y = (a.c1.x - a.c2.y, a.c1.y + a.c2.x)` used by `polar_decomposition`. -/
def Mat2.polarY (m : Mat2) : Vec2 := ⟨m.c1.x - m.c2.y, m.c1.y + m.c2.x⟩

/-- Polar decomposition of a 2×2 matrix, modelling `Mat2::polar_decomposition`. -/
def Mat2.polar_decomposition (m : Mat2) : Mat2 :=
  let x := m.polarX
  let y := m.polarY
  let len_x := x.length
  let len_y := y.length
  if len_x > len_y then
    let inv_len_x := 1 / len_x
    Mat2.mk ⟨x.x * inv_len_x, x.y * inv_len_x⟩ ⟨-x.y * inv_len_x, x.x * inv_len_x⟩
  else if len_y > EPSILON then
    let inv_len_y := 1 / len_y
    Mat2.mk ⟨y.x * inv_len_y, y.y * inv_len_y⟩ ⟨y.y * inv_len_y, -y.x * inv_len_y⟩
  else
    Mat2.mk ⟨1, 0⟩ ⟨0, 1⟩

/-- Transpose of a 2×2 matrix (mathematical helper for stating orthonormality). -/
def Mat2.transpose (m : Mat2) : Mat2 := ⟨⟨m.c1.x, m.c2.x⟩, ⟨m.c1.y, m.c2.y⟩⟩

/-- Matrix product of 2×2 matrices (mathematical helper), columns via `mul_vec`. -/
def Mat2.mulM (a b : Mat2) : Mat2 := ⟨a.mul_vec b.c1, a.mul_vec b.c2⟩

/-- Determinant of a 2×2 matrix (mathematical helper). -/
def Mat2.det (m : Mat2) : ℝ := m.c1.x * m.c2.y - m.c2.x * m.c1.y

/-- The 2×2 identity matrix. -/
def Mat2.idM : Mat2 := ⟨⟨1, 0⟩, ⟨0, 1⟩⟩

/-- Point mass, modelling `Particle`. -/
@[ext]
structure Particle where
  pos : Vec2
  prev_pos : Vec2
  vel : Vec2
  inv_mass : ℝ
  radius : ℝ
  is_fixed : Bool

/-- Constructor defaults of `Particle::new`. -/
def Particle.new (x y : ℝ) : Particle :=
  { pos := ⟨x, y⟩, prev_pos := ⟨x, y⟩, vel := ⟨0, 0⟩
    inv_mass := 1, radius := 8, is_fixed := false }

/-- Indexed read from the particle store (`particles[i]`), totalized with a
default particle for out-of-range indices. -/
def getP (ps : List Particle) (i : ℕ) : Particle := ps.getD i (Particle.new 0 0)

/-- Position of the particle at index `i`. -/
def posAt (ps : List Particle) (i : ℕ) : Vec2 := (getP ps i).pos

/-- Distance constraint between two particle indices, modelling `Spring`. -/
structure Spring where
  p1_index : ℕ
  p2_index : ℕ
  rest_length : ℝ
  stiffness : ℝ

/-- Modelling `Spring::new`: the rest length is the distance between the two
indexed particles' positions at construction time. -/
def Spring.new (p1_index p2_index : ℕ) (stiffness : ℝ) (particles : List Particle) : Spring :=
  { p1_index, p2_index
    rest_length := ((getP particles p1_index).pos - (getP particles p2_index).pos).length
    stiffness }

/-- Modelling `Spring::solve`: one Gauss–Seidel projection of the distance
constraint, with the total-inverse-mass and zero-distance guards. -/
def Spring.solve (s : Spring) (particles : List Particle) : List Particle :=
  let p1 := getP particles s.p1_index
  let p2 := getP particles s.p2_index
  let total_inv_mass := p1.inv_mass + p2.inv_mass
  if total_inv_mass < EPSILON then particles
  else
    let diff := p1.pos - p2.pos
    let dist := diff.length
    if dist < EPSILON then particles
    else
      let correction := diff * ((dist - s.rest_length) / dist)
      let correction_vec := correction * (s.stiffness / total_inv_mass)
      (particles.set s.p1_index { p1 with pos := p1.pos - correction_vec * p1.inv_mass }).set
        s.p2_index { p2 with pos := p2.pos + correction_vec * p2.inv_mass }

/-- Mass used in the shape-matching centroid: `1/inv_mass` when the inverse
mass exceeds epsilon, else `0`. -/
def massOf (p : Particle) : ℝ := if p.inv_mass > EPSILON then 1 / p.inv_mass else 0

/-- Shape-preserving constraint over a particle group, modelling
`ShapeMatchingConstraint`. -/
structure ShapeMatchingConstraint where
  particle_indices : List ℕ
  stiffness : ℝ
  initial_shape : List Vec2
  center_of_mass : Vec2

/-- Modelling `ShapeMatchingConstraint::new`: compute the mass-weighted
centroid of the indexed particles and store each particle's offset from it. -/
def ShapeMatchingConstraint.new (particle_indices : List ℕ) (stiffness : ℝ)
    (particles : List Particle) : ShapeMatchingConstraint :=
  let center := particle_indices.foldl
    (fun acc i => acc + (getP particles i).pos * massOf (getP particles i)) (Vec2.mk 0 0)
  let total_mass := particle_indices.foldl (fun acc i => acc + massOf (getP particles i)) (0 : ℝ)
  let initial_center : Vec2 :=
    if total_mass > EPSILON then center * (1 / total_mass) else Vec2.mk 0 0
  { particle_indices, stiffness
    initial_shape := particle_indices.map (fun i => (getP particles i).pos - initial_center)
    center_of_mass := initial_center }

/-- Modelling `ShapeMatchingConstraint::calculate_center_of_mass`: recompute
the mass-weighted centroid, keeping the cached one when the group is
effectively massless. -/
def ShapeMatchingConstraint.calculate_center_of_mass (c : ShapeMatchingConstraint)
    (particles : List Particle) : ShapeMatchingConstraint :=
  let center := c.particle_indices.foldl
    (fun acc i => acc + (getP particles i).pos * massOf (getP particles i)) (Vec2.mk 0 0)
  let total_mass := c.particle_indices.foldl
    (fun acc i => acc + massOf (getP particles i)) (0 : ℝ)
  { c with center_of_mass :=
      if total_mass > EPSILON then center * (1 / total_mass) else c.center_of_mass }

/-- The covariance accumulation loop of `ShapeMatchingConstraint::solve`:
`a_pq += (pos - com) ⊗ q` over the zipped index/rest-offset list. -/
def apqFold (particles : List Particle) (com : Vec2) (l : List (ℕ × Vec2)) (init : Mat2) : Mat2 :=
  l.foldl
    (fun m iq =>
      let q := iq.2
      let p := (getP particles iq.1).pos - com
      Mat2.mk ⟨m.c1.x + p.x * q.x, m.c1.y + p.y * q.x⟩
              ⟨m.c2.x + p.x * q.y, m.c2.y + p.y * q.y⟩)
    init

/-- The correction loop of `ShapeMatchingConstraint::solve`: skip fixed
particles, move the rest toward `com + R·q` by the stiffness fraction. -/
def shapeApply (com : Vec2) (r : Mat2) (stiffness : ℝ) (l : List (ℕ × Vec2))
    (particles : List Particle) : List Particle :=
  l.foldl
    (fun acc iq =>
      let particle := getP acc iq.1
      if particle.is_fixed then acc
      else
        let goal_pos := com + r.mul_vec iq.2
        acc.set iq.1 { particle with pos := particle.pos + (goal_pos - particle.pos) * stiffness })
    particles

/-- Modelling `ShapeMatchingConstraint::solve`: recompute the centroid,
accumulate `Apq`, extract the rotation, then correct the non-fixed particles.
Returns the updated constraint (its mutated `center_of_mass`) and store. -/
def ShapeMatchingConstraint.solve (c : ShapeMatchingConstraint) (particles : List Particle) :
    ShapeMatchingConstraint × List Particle :=
  let c1 := c.calculate_center_of_mass particles
  let pairs := c1.particle_indices.zip c1.initial_shape
  let a_pq := apqFold particles c1.center_of_mass pairs (Mat2.mk ⟨0, 0⟩ ⟨0, 0⟩)
  let r := a_pq.polar_decomposition
  (c1, shapeApply c1.center_of_mass r c1.stiffness pairs particles)

/-- Aggregate of a body's particle indices, springs, and optional shape
constraint, modelling `SoftBody`. -/
structure SoftBody where
  particle_indices : List ℕ
  springs : List Spring
  shape_constraint : Option ShapeMatchingConstraint

/-- Global configuration, modelling `SimulationConfig`. -/
structure SimulationConfig where
  gravity : Vec2
  damping : ℝ
  solver_iterations : ℕ
  bounds : Option (Vec2 × Vec2)

/-- Soft-body construction descriptor, modelling `SoftBodyConfig`. -/
structure SoftBodyConfig where
  center : Vec2
  size : Vec2
  rows : ℕ
  cols : ℕ
  stiffness : ℝ
  shape_stiffness : ℝ
  is_fixed : Bool
  particle_radius : ℝ
  particle_inv_mass : ℝ

/-- The whole simulation state, modelling `Simulation`. -/
structure Simulation where
  particles : List Particle
  soft_bodies : List SoftBody
  config : SimulationConfig

/-- Horizontal grid spacing of `add_soft_body`: `size.x / (cols - 1)` when
`cols > 1`, else `0`. -/
def spacingX (config : SoftBodyConfig) : ℝ :=
  if config.cols > 1 then config.size.x / ((config.cols - 1 : ℕ) : ℝ) else 0

/-- Vertical grid spacing of `add_soft_body`. -/
def spacingY (config : SoftBodyConfig) : ℝ :=
  if config.rows > 1 then config.size.y / ((config.rows - 1 : ℕ) : ℝ) else 0

/-- The particle created by `add_soft_body` at grid cell `(i, j)`. -/
def gridParticle (config : SoftBodyConfig) (i j : ℕ) : Particle :=
  let top_left := config.center - Vec2.mk (config.size.x * 0.5) (config.size.y * 0.5)
  let x := top_left.x + (j : ℝ) * spacingX config
  let y := top_left.y + (i : ℝ) * spacingY config
  let p := Particle.new x y
  if config.is_fixed then { p with radius := config.particle_radius, is_fixed := true, inv_mass := 0 }
  else { p with radius := config.particle_radius, inv_mass := config.particle_inv_mass }

/-- The `rows × cols` particles appended by `add_soft_body`, in row-major
push order. -/
def gridParticles (config : SoftBodyConfig) : List Particle :=
  (List.range config.rows).flatMap
    (fun i => (List.range config.cols).map (fun j => gridParticle config i j))

/-- The spring list built by `add_soft_body`: for every cell one spring to the
right neighbor and one to the bottom neighbor, when `stiffness > 0`. -/
def gridSprings (config : SoftBodyConfig) (start_index : ℕ) (particles : List Particle) :
    List Spring :=
  if config.stiffness > 0 then
    (List.range config.rows).flatMap (fun i =>
      (List.range config.cols).flatMap (fun j =>
        (if j < config.cols - 1 then
          [Spring.new (start_index + i * config.cols + j) (start_index + i * config.cols + (j + 1))
            config.stiffness particles]
         else []) ++
        (if i < config.rows - 1 then
          [Spring.new (start_index + i * config.cols + j) (start_index + (i + 1) * config.cols + j)
            config.stiffness particles]
         else [])))
  else []

/-- Modelling `Simulation::add_soft_body`: append the grid particles, build
the springs and optional shape constraint, and push the new body. -/
def Simulation.add_soft_body (sim : Simulation) (config : SoftBodyConfig) : Simulation :=
  let start_index := sim.particles.length
  let particles := sim.particles ++ gridParticles config
  let particle_indices :=
    (List.range (config.rows * config.cols)).map (fun k => start_index + k)
  let springs := gridSprings config start_index particles
  let shape_constraint :=
    if config.shape_stiffness > 0 then
      some (ShapeMatchingConstraint.new particle_indices config.shape_stiffness particles)
    else none
  { sim with
      particles
      soft_bodies := sim.soft_bodies ++ [{ particle_indices, springs, shape_constraint }] }

/-- Integration phase of `step`: for every non-fixed particle,
`vel += gravity*dt; prev_pos = pos; pos += vel*dt`. -/
def integrate (gravity : Vec2) (dt : ℝ) (particles : List Particle) : List Particle :=
  particles.map (fun p =>
    if p.is_fixed then p
    else
      let vel := p.vel + gravity * dt
      { p with vel, prev_pos := p.pos, pos := p.pos + vel * dt })

/-- One pairwise collision response, modelling the body of the double loop in
`Simulation::solve_collisions`. -/
def collidePair (particles : List Particle) (ij : ℕ × ℕ) : List Particle :=
  let p1 := getP particles ij.1
  let p2 := getP particles ij.2
  let diff := p1.pos - p2.pos
  let dist_sq := diff.length_squared
  let min_dist := p1.radius + p2.radius
  if dist_sq < min_dist * min_dist then
    let dist := Real.sqrt dist_sq
    let total_inv_mass := p1.inv_mass + p2.inv_mass
    if total_inv_mass < EPSILON then particles
    else
      let correction := diff.normalize * ((min_dist - dist) / total_inv_mass)
      (particles.set ij.1 { p1 with pos := p1.pos + correction * p1.inv_mass }).set
        ij.2 { p2 with pos := p2.pos - correction * p2.inv_mass }
  else particles

/-- The index pairs `(i, j)` with `i < j < n` visited by the collision double
loop, in loop order. -/
def pairList (n : ℕ) : List (ℕ × ℕ) :=
  (List.range n).flatMap (fun i =>
    (List.range (n - (i + 1))).map (fun k => (i, i + 1 + k)))

/-- Modelling `Simulation::solve_collisions`: the all-pairs Gauss–Seidel
collision sweep. -/
def solveCollisions (particles : List Particle) : List Particle :=
  (pairList particles.length).foldl collidePair particles

/-- Per-axis clamp `v.max(lo).min(hi)` used by the boundary conditions. -/
def clampR (v lo hi : ℝ) : ℝ := min (max v lo) hi

/-- The clamped position of one particle for bounds `(mn, mx)`. -/
def clampPos (mn mx : Vec2) (p : Particle) : Vec2 :=
  ⟨clampR p.pos.x (mn.x + p.radius) (mx.x - p.radius),
   clampR p.pos.y (mn.y + p.radius) (mx.y - p.radius)⟩

/-- Modelling `Simulation::apply_boundary_conditions`: clamp every particle's
position per axis when bounds are set. -/
def applyBoundaryConditions (config : SimulationConfig) (particles : List Particle) :
    List Particle :=
  match config.bounds with
  | none => particles
  | some (mn, mx) => particles.map (fun p => { p with pos := clampPos mn mx p })

/-- Solving one soft body: every spring once in list order, then the shape
constraint once if present (which mutates its cached centroid). -/
def solveBody (particles : List Particle) (sb : SoftBody) : List Particle × SoftBody :=
  let ps1 := sb.springs.foldl (fun acc s => s.solve acc) particles
  match sb.shape_constraint with
  | none => (ps1, sb)
  | some sc =>
      let r := sc.solve ps1
      (r.2, { sb with shape_constraint := some r.1 })

/-- Solving all soft bodies in insertion order, threading the store and the
mutated constraints. -/
def solveBodies (state : List Particle × List SoftBody) : List Particle × List SoftBody :=
  state.2.foldl
    (fun acc sb =>
      let r := solveBody acc.1 sb
      (r.1, acc.2 ++ [r.2]))
    (state.1, [])

/-- One iteration of the relaxation loop in `step`: all bodies, then the
global collision pass, then the boundary clamp. -/
def relaxOnce (config : SimulationConfig) (state : List Particle × List SoftBody) :
    List Particle × List SoftBody :=
  let s1 := solveBodies state
  let ps2 := solveCollisions s1.1
  (applyBoundaryConditions config ps2, s1.2)

/-- Velocity-reconstruction phase of `step`: fixed particles get zero
velocity, the rest `((pos - prev_pos)/dt) * damping`. -/
def velocityUpdate (config : SimulationConfig) (dt : ℝ) (particles : List Particle) :
    List Particle :=
  particles.map (fun p =>
    if p.is_fixed then { p with vel := ⟨0, 0⟩ }
    else { p with vel := (p.pos - p.prev_pos) * (1 / dt) * config.damping })

/-- Modelling `Simulation::step`: integrate, relax `solver_iterations` times,
then reconstruct velocities. -/
def Simulation.step (sim : Simulation) (dt : ℝ) : Simulation :=
  let ps1 := integrate sim.config.gravity dt sim.particles
  let st := (relaxOnce sim.config)^[sim.config.solver_iterations] (ps1, sim.soft_bodies)
  { sim with particles := velocityUpdate sim.config dt st.1, soft_bodies := st.2 }

/-- Total mass of a shape-matching group written as a mathematical sum over
all indexed particles. -/
def totalMassSpec (c : ShapeMatchingConstraint) (particles : List Particle) : ℝ :=
  (c.particle_indices.map (fun i => massOf (getP particles i))).sum

/-- The recomputed centroid written as a mass-weighted sum over all indexed
particles (spec form of step 1 of `solve`), keeping the cache when massless. -/
def comSpec (c : ShapeMatchingConstraint) (particles : List Particle) : Vec2 :=
  let total := totalMassSpec c particles
  if total > EPSILON then
    ⟨(c.particle_indices.map (fun i => (getP particles i).pos.x * massOf (getP particles i))).sum
       * (1 / total),
     (c.particle_indices.map (fun i => (getP particles i).pos.y * massOf (getP particles i))).sum
       * (1 / total)⟩
  else c.center_of_mass

/-- The covariance matrix `Apq = Σ (pos - com) ⊗ q` written as a mathematical
sum over all zipped index/rest-offset pairs (spec form of step 2 of `solve`). -/
def apqSpec (particles : List Particle) (com : Vec2) (l : List (ℕ × Vec2)) : Mat2 :=
  ⟨⟨(l.map (fun iq => ((getP particles iq.1).pos - com).x * iq.2.x)).sum,
    (l.map (fun iq => ((getP particles iq.1).pos - com).y * iq.2.x)).sum⟩,
   ⟨(l.map (fun iq => ((getP particles iq.1).pos - com).x * iq.2.y)).sum,
    (l.map (fun iq => ((getP particles iq.1).pos - com).y * iq.2.y)).sum⟩⟩

/-- The particle at index `i` is a fixed anchor: flagged fixed with zero
inverse mass. -/
def FixedAt (particles : List Particle) (i : ℕ) : Prop :=
  (getP particles i).is_fixed = true ∧ (getP particles i).inv_mass = 0

/-- Two stores have the same length and agree everywhere on the
mass/radius/fixed metadata (positions and velocities may differ). -/
def MetaPres (ps ps' : List Particle) : Prop :=
  ps'.length = ps.length ∧ ∀ i : ℕ,
    (getP ps' i).inv_mass = (getP ps i).inv_mass ∧
    (getP ps' i).radius = (getP ps i).radius ∧
    (getP ps' i).is_fixed = (getP ps i).is_fixed

/-- A one-particle test simulation: a fixed anchor at `(-5, 5)` with radius 1
inside bounds `((0,0),(10,10))`, no soft bodies, one solver iteration. -/
def demoSim : Simulation :=
  { particles := [{ Particle.new (-5) 5 with radius := 1, inv_mass := 0, is_fixed := true }]
    soft_bodies := []
    config :=
      { gravity := ⟨0, 0⟩, damping := 1, solver_iterations := 1
        bounds := some (⟨0, 0⟩, ⟨10, 10⟩) } }

/-- A two-particle shape-matching test group: indices `[0, 1]`, rest offsets
`(-1,0)` and `(1,0)`, cached centroid at the origin. -/
def demoShape : ShapeMatchingConstraint :=
  { particle_indices := [0, 1], stiffness := 1 / 2
    initial_shape := [⟨-1, 0⟩, ⟨1, 0⟩], center_of_mass := ⟨0, 0⟩ }

/-- A two-particle store for the shape test: a fixed anchor at the origin and
a free particle at `(1, 0)`. -/
def demoShapeStore : List Particle :=
  [{ Particle.new 0 0 with inv_mass := 0, is_fixed := true }, Particle.new 1 0]

/-- A 2×2 soft-body descriptor used to exercise `add_soft_body`. -/
def gridCfg : SoftBodyConfig :=
  { center := ⟨0, 0⟩, size := ⟨2, 2⟩, rows := 2, cols := 2, stiffness := 1 / 2
    shape_stiffness := 0, is_fixed := false, particle_radius := 1 / 10
    particle_inv_mass := 1 }

/-- An empty simulation to add bodies into. -/
def emptySim : Simulation :=
  { particles := [], soft_bodies := []
    config := { gravity := ⟨0, 270⟩, damping := 99 / 100, solver_iterations := 8
                bounds := none } }

/-! ### Basic helper lemmas -/

theorem getP_set_self {ps : List Particle} {i : ℕ} (h : i < ps.length) (a : Particle) :
    getP (ps.set i a) i = a := by
  simp [getP, List.getD_eq_getElem?_getD, List.getElem?_set_eq h]

theorem getP_set_ne (ps : List Particle) {i j : ℕ} (h : i ≠ j) (a : Particle) :
    getP (ps.set i a) j = getP ps j := by
  simp [getP, List.getD_eq_getElem?_getD, List.getElem?_set_ne h]

theorem getP_oob {ps : List Particle} {i : ℕ} (h : ¬ i < ps.length) :
    getP ps i = Particle.new 0 0 := by
  simp [getP, List.getD_eq_getElem?_getD, List.getElem?_eq_none (by omega : ps.length ≤ i)]

theorem getP_map (f : Particle → Particle) (ps : List Particle) {i : ℕ} (h : i < ps.length) :
    getP (ps.map f) i = f (getP ps i) := by
  simp [getP, List.getD_eq_getElem?_getD, List.getElem?_map, List.getElem?_eq_getElem h]

theorem getP_append_right (ps qs : List Particle) (k : ℕ) (h : k < qs.length) :
    getP (ps ++ qs) (ps.length + k) = getP qs k := by
  simp [getP, List.getD_eq_getElem?_getD, List.getElem?_append_right (Nat.le_add_right _ _)]

theorem foldl_inv {α β : Type} (P : β → Prop) (f : β → α → β) (l : List α) (b : β)
    (h0 : P b) (hstep : ∀ x a, a ∈ l → P x → P (f x a)) : P (l.foldl f b) := by
  induction l generalizing b with
  | nil => simpa using h0
  | cons hd tl ih =>
      simpa using ih (f b hd) (hstep b hd (by simp) h0)
        (fun x a ha hx => hstep x a (by simp [ha]) hx)

theorem smul_zero_vec (v : Vec2) : v * (0 : ℝ) = Vec2.mk 0 0 := by
  ext <;> simp

theorem add_smul_zero (w v : Vec2) : w + v * (0 : ℝ) = w := by
  ext <;> simp

theorem sub_smul_zero (w v : Vec2) : w - v * (0 : ℝ) = w := by
  ext <;> simp

theorem length_smul (v : Vec2) (c : ℝ) : (v * c).length = |c| * v.length := by
  unfold Vec2.length
  have h : (v * c).x * (v * c).x + (v * c).y * (v * c).y
      = c ^ 2 * (v.x * v.x + v.y * v.y) := by simp; ring
  rw [h, Real.sqrt_mul (sq_nonneg c), Real.sqrt_sq_eq_abs]

theorem length_eval (a b r : ℝ) (hr : 0 ≤ r) (h : a * a + b * b = r ^ 2) :
    Vec2.length ⟨a, b⟩ = r := by
  rw [Vec2.length, h, Real.sqrt_sq hr]

/-! ### Polar decomposition branch lemmas -/

theorem polar_branch1 {m : Mat2} (h : m.polarX.length > m.polarY.length) :
    m.polar_decomposition =
      Mat2.mk ⟨m.polarX.x * (1 / m.polarX.length), m.polarX.y * (1 / m.polarX.length)⟩
              ⟨-m.polarX.y * (1 / m.polarX.length), m.polarX.x * (1 / m.polarX.length)⟩ := by
  simp only [Mat2.polar_decomposition, if_pos h]

theorem polar_branch2 {m : Mat2} (h1 : ¬ m.polarX.length > m.polarY.length)
    (h2 : m.polarY.length > EPSILON) :
    m.polar_decomposition =
      Mat2.mk ⟨m.polarY.x * (1 / m.polarY.length), m.polarY.y * (1 / m.polarY.length)⟩
              ⟨m.polarY.y * (1 / m.polarY.length), -m.polarY.x * (1 / m.polarY.length)⟩ := by
  simp only [Mat2.polar_decomposition, if_neg h1, if_pos h2]

theorem polar_branch3 {m : Mat2} (h1 : ¬ m.polarX.length > m.polarY.length)
    (h2 : ¬ m.polarY.length > EPSILON) :
    m.polar_decomposition = Mat2.idM := by
  simp only [Mat2.polar_decomposition, if_neg h1, if_neg h2]
  rfl

theorem eps_pos : 0 < EPSILON := by norm_num [EPSILON]

theorem length_polarX_eval (m : Mat2) (r : ℝ) (hr : 0 ≤ r)
    (h : (m.c1.x + m.c2.y) * (m.c1.x + m.c2.y) + (m.c1.y - m.c2.x) * (m.c1.y - m.c2.x) = r ^ 2) :
    m.polarX.length = r := length_eval _ _ r hr h

theorem length_polarY_eval (m : Mat2) (r : ℝ) (hr : 0 ≤ r)
    (h : (m.c1.x - m.c2.y) * (m.c1.x - m.c2.y) + (m.c1.y + m.c2.x) * (m.c1.y + m.c2.x) = r ^ 2) :
    m.polarY.length = r := length_eval _ _ r hr h

/-- C1 (counterexample): the non-degenerate matrix `A = [[1,0],[0,-1]]`
(`det A = -1 ≠ 0`) is sent by `polar_decomposition` to a matrix of
determinant `-1`, a reflection, refuting `det(R) ≈ +1` for every
non-degenerate input. -/
theorem spec2_C1_counterexample :
    Mat2.det (Mat2.mk ⟨1, 0⟩ ⟨0, -1⟩) ≠ 0 ∧
    Mat2.det ((Mat2.mk ⟨1, 0⟩ ⟨0, -1⟩ : Mat2).polar_decomposition) = -1 := by
  have hx : (Mat2.mk ⟨1, 0⟩ ⟨0, -1⟩ : Mat2).polarX.length = 0 :=
    length_polarX_eval _ 0 le_rfl (by norm_num)
  have hy : (Mat2.mk ⟨1, 0⟩ ⟨0, -1⟩ : Mat2).polarY.length = 2 :=
    length_polarY_eval _ 2 (by norm_num) (by norm_num)
  have h1 : ¬ (Mat2.mk ⟨1, 0⟩ ⟨0, -1⟩ : Mat2).polarX.length >
      (Mat2.mk ⟨1, 0⟩ ⟨0, -1⟩ : Mat2).polarY.length := by rw [hx, hy]; norm_num
  have h2 : (Mat2.mk ⟨1, 0⟩ ⟨0, -1⟩ : Mat2).polarY.length > EPSILON := by
    rw [hy]; norm_num [EPSILON]
  refine ⟨by norm_num [Mat2.det], ?_⟩
  rw [polar_branch2 h1 h2, hy]
  norm_num [Mat2.det, Mat2.polarY]

/-- C1 (amended): for every 2×2 matrix `A`, `polar_decomposition(A)` returns
an orthonormal matrix (`R · Rᵗ = I`) whose determinant is `+1` or `-1`;
it is `+1` whenever `‖x‖ > ‖y‖` (the rotation branch), but it is `-1`
whenever `‖x‖ ≤ ‖y‖` and `‖y‖ > ε` (the reflection branch), so a pure
rotation is not guaranteed for matrices whose reflection part dominates. -/
theorem spec2_C1_theorem : ∀ m : Mat2,
    Mat2.mulM m.polar_decomposition m.polar_decomposition.transpose = Mat2.idM ∧
    (Mat2.det m.polar_decomposition = 1 ∨ Mat2.det m.polar_decomposition = -1) ∧
    (m.polarX.length > m.polarY.length → Mat2.det m.polar_decomposition = 1) ∧
    (¬ m.polarX.length > m.polarY.length → m.polarY.length > EPSILON →
      Mat2.det m.polar_decomposition = -1) := by
  intro m
  by_cases h1 : m.polarX.length > m.polarY.length
  · have hL0 : m.polarX.length ≠ 0 :=
      ne_of_gt (lt_of_le_of_lt (Vec2.length_nonneg _) h1)
    have hL : m.polarX.length * m.polarX.length =
        m.polarX.x * m.polarX.x + m.polarX.y * m.polarX.y := Vec2.sq_length _
    have hk : m.polarX.x * (1 / m.polarX.length) * (m.polarX.x * (1 / m.polarX.length)) +
        m.polarX.y * (1 / m.polarX.length) * (m.polarX.y * (1 / m.polarX.length)) = 1 := by
      field_simp
      first
        | linear_combination hL
        | linear_combination -hL
    have hdet : Mat2.det m.polar_decomposition = 1 := by
      rw [polar_branch1 h1]
      simp only [Mat2.det]
      linear_combination hk
    refine ⟨?_, Or.inl hdet, fun _ => hdet, fun h _ => absurd h1 h⟩
    rw [polar_branch1 h1]
    ext <;> simp only [Mat2.mulM, Mat2.mul_vec, Mat2.transpose, Mat2.idM] <;>
      first
        | linear_combination hk
        | linear_combination -hk
        | ring
  · by_cases h2 : m.polarY.length > EPSILON
    · have hL0 : m.polarY.length ≠ 0 := ne_of_gt (lt_trans eps_pos h2)
      have hL : m.polarY.length * m.polarY.length =
          m.polarY.x * m.polarY.x + m.polarY.y * m.polarY.y := Vec2.sq_length _
      have hk : m.polarY.x * (1 / m.polarY.length) * (m.polarY.x * (1 / m.polarY.length)) +
          m.polarY.y * (1 / m.polarY.length) * (m.polarY.y * (1 / m.polarY.length)) = 1 := by
        field_simp
        first
          | linear_combination hL
          | linear_combination -hL
      have hdet : Mat2.det m.polar_decomposition = -1 := by
        rw [polar_branch2 h1 h2]
        simp only [Mat2.det]
        linear_combination -hk
      refine ⟨?_, Or.inr hdet, fun h => absurd h h1, fun _ _ => hdet⟩
      rw [polar_branch2 h1 h2]
      ext <;> simp only [Mat2.mulM, Mat2.mul_vec, Mat2.transpose, Mat2.idM] <;>
        first
          | linear_combination hk
          | linear_combination -hk
          | ring
    · have hdet : Mat2.det m.polar_decomposition = 1 := by
        rw [polar_branch3 h1 h2]; norm_num [Mat2.det, Mat2.idM]
      refine ⟨?_, Or.inl hdet, fun _ => hdet, fun _ h => absurd h h2⟩
      rw [polar_branch3 h1 h2]
      ext <;> norm_num [Mat2.mulM, Mat2.mul_vec, Mat2.transpose, Mat2.idM]

/-- C1 (witness): at the identity matrix the rotation branch applies
(`‖x‖ = 2 > 0 = ‖y‖`) and the determinant of the result is `+1`. -/
theorem spec2_C1_witness :
    Mat2.idM.polarX.length > Mat2.idM.polarY.length ∧
    Mat2.det (Mat2.idM.polar_decomposition) = 1 := by
  have h : Mat2.idM.polarX.length > Mat2.idM.polarY.length := by
    rw [length_polarX_eval Mat2.idM 2 (by norm_num) (by norm_num [Mat2.idM]),
      length_polarY_eval Mat2.idM 0 le_rfl (by norm_num [Mat2.idM])]
    norm_num
  exact ⟨h, (spec2_C1_theorem Mat2.idM).2.2.1 h⟩

/-- C8 (counterexample): for `A = [[-2⁻⁵⁴,0],[0,-2⁻⁵⁴]]` both `x` and `y`
have length below epsilon (`‖x‖ = 2⁻⁵³ < ε`, `‖y‖ = 0`), yet
`polar_decomposition` takes the `x` branch (dividing by the sub-epsilon
length `2⁻⁵³`) and returns `-I`, not the identity matrix. -/
theorem spec2_C8_counterexample :
    (Mat2.mk ⟨-(1 / 2 ^ 54), 0⟩ ⟨0, -(1 / 2 ^ 54)⟩ : Mat2).polarX.length < EPSILON ∧
    (Mat2.mk ⟨-(1 / 2 ^ 54), 0⟩ ⟨0, -(1 / 2 ^ 54)⟩ : Mat2).polarY.length < EPSILON ∧
    (Mat2.mk ⟨-(1 / 2 ^ 54), 0⟩ ⟨0, -(1 / 2 ^ 54)⟩ : Mat2).polar_decomposition ≠ Mat2.idM := by
  have hx : (Mat2.mk ⟨-(1 / 2 ^ 54), 0⟩ ⟨0, -(1 / 2 ^ 54)⟩ : Mat2).polarX.length = 1 / 2 ^ 53 :=
    length_polarX_eval _ (1 / 2 ^ 53) (by norm_num) (by norm_num)
  have hy : (Mat2.mk ⟨-(1 / 2 ^ 54), 0⟩ ⟨0, -(1 / 2 ^ 54)⟩ : Mat2).polarY.length = 0 :=
    length_polarY_eval _ 0 le_rfl (by norm_num)
  have h1 : (Mat2.mk ⟨-(1 / 2 ^ 54), 0⟩ ⟨0, -(1 / 2 ^ 54)⟩ : Mat2).polarX.length >
      (Mat2.mk ⟨-(1 / 2 ^ 54), 0⟩ ⟨0, -(1 / 2 ^ 54)⟩ : Mat2).polarY.length := by
    rw [hx, hy]; norm_num
  refine ⟨by rw [hx]; norm_num [EPSILON], by rw [hy]; norm_num [EPSILON], ?_⟩
  intro hcontra
  have hc1 := congrArg (fun M : Mat2 => M.c1.x) hcontra
  rw [polar_branch1 h1, hx] at hc1
  simp only [Mat2.polarX, Mat2.idM] at hc1
  norm_num at hc1

/-- C8 (amended): `polar_decomposition` normalizes `x` into R's columns when
`‖x‖ > ‖y‖` — and then the divisor `‖x‖` is strictly positive but may be
below epsilon — normalizes `y` when `‖x‖ ≤ ‖y‖` and `‖y‖ > ε`, and returns
the identity matrix exactly in the remaining case `‖x‖ ≤ ‖y‖ ≤ ε`; it is not
the case that every `A` with both lengths below epsilon yields the identity. -/
theorem spec2_C8_theorem : ∀ m : Mat2,
    (m.polarX.length > m.polarY.length →
      0 < m.polarX.length ∧
      m.polar_decomposition =
        Mat2.mk ⟨m.polarX.x * (1 / m.polarX.length), m.polarX.y * (1 / m.polarX.length)⟩
                ⟨-m.polarX.y * (1 / m.polarX.length), m.polarX.x * (1 / m.polarX.length)⟩) ∧
    (¬ m.polarX.length > m.polarY.length → m.polarY.length > EPSILON →
      m.polar_decomposition =
        Mat2.mk ⟨m.polarY.x * (1 / m.polarY.length), m.polarY.y * (1 / m.polarY.length)⟩
                ⟨m.polarY.y * (1 / m.polarY.length), -m.polarY.x * (1 / m.polarY.length)⟩) ∧
    (¬ m.polarX.length > m.polarY.length → ¬ m.polarY.length > EPSILON →
      m.polar_decomposition = Mat2.idM) := by
  intro m
  refine ⟨fun h1 => ⟨lt_of_le_of_lt (Vec2.length_nonneg _) h1, polar_branch1 h1⟩,
    fun h1 h2 => polar_branch2 h1 h2, fun h1 h2 => polar_branch3 h1 h2⟩

/-- C8 (witness): at the identity matrix the `x` branch applies with a
strictly positive divisor. -/
theorem spec2_C8_witness :
    Mat2.idM.polarX.length > Mat2.idM.polarY.length ∧ 0 < Mat2.idM.polarX.length := by
  have h : Mat2.idM.polarX.length > Mat2.idM.polarY.length := by
    rw [length_polarX_eval Mat2.idM 2 (by norm_num) (by norm_num [Mat2.idM]),
      length_polarY_eval Mat2.idM 0 le_rfl (by norm_num [Mat2.idM])]
    norm_num
  exact ⟨h, ((spec2_C8_theorem Mat2.idM).1 h).1⟩

theorem zero_vec_smul (c : ℝ) : (Vec2.mk 0 0) * c = Vec2.mk 0 0 := by
  ext <;> simp

theorem add_zero_vec (w : Vec2) : w + Vec2.mk 0 0 = w := by
  ext <;> simp

theorem sub_zero_vec (w : Vec2) : w - Vec2.mk 0 0 = w := by
  ext <;> simp

theorem length_zero_vec : (Vec2.mk 0 0).length = 0 := by
  simp [Vec2.length]

theorem normalize_zero_vec : (Vec2.mk 0 0).normalize = Vec2.mk 0 0 := by
  rw [Vec2.normalize, if_neg]
  rw [length_zero_vec]
  exact not_lt_of_le (le_of_lt eps_pos)

theorem posAt_set_same {ps : List Particle} {i : ℕ} {a : Particle}
    (ha : a.pos = (getP ps i).pos) : posAt (ps.set i a) i = posAt ps i := by
  by_cases h : i < ps.length
  · rw [posAt, getP_set_self h, ha]; rfl
  · rw [List.set_eq_of_length_le (le_of_not_lt h)]

theorem posAt_set_ne {i j : ℕ} (ps : List Particle) (h : i ≠ j) (a : Particle) :
    posAt (ps.set i a) j = posAt ps j := by
  rw [posAt, getP_set_ne ps h]; rfl

theorem foldl_add_eq_sum {α : Type} (g : α → ℝ) (l : List α) (r : ℝ) :
    l.foldl (fun acc i => acc + g i) r = r + (l.map g).sum := by
  induction l generalizing r with
  | nil => simp
  | cons hd tl ih => simp [ih, add_assoc]

theorem foldl_addv_x {α : Type} (v : α → Vec2) (l : List α) (z : Vec2) :
    (l.foldl (fun acc i => acc + v i) z).x = z.x + (l.map (fun i => (v i).x)).sum := by
  induction l generalizing z with
  | nil => simp
  | cons hd tl ih => simp [ih, add_assoc]

theorem foldl_addv_y {α : Type} (v : α → Vec2) (l : List α) (z : Vec2) :
    (l.foldl (fun acc i => acc + v i) z).y = z.y + (l.map (fun i => (v i).y)).sum := by
  induction l generalizing z with
  | nil => simp
  | cons hd tl ih => simp [ih, add_assoc]

/-- C5: a freshly constructed spring's rest length is exactly the distance
between its two particles' positions, and `solve` is an exact no-op on both
positions when the current distance equals the rest length. -/
theorem spec2_C5_spring :
    (∀ (i j : ℕ) (st : ℝ) (ps : List Particle),
       (Spring.new i j st ps).rest_length = ((getP ps i).pos - (getP ps j).pos).length) ∧
    (∀ (s : Spring) (ps : List Particle), s.p1_index ≠ s.p2_index →
       ((getP ps s.p1_index).pos - (getP ps s.p2_index).pos).length = s.rest_length →
       posAt (s.solve ps) s.p1_index = posAt ps s.p1_index ∧
       posAt (s.solve ps) s.p2_index = posAt ps s.p2_index) := by
  refine ⟨fun i j st ps => rfl, fun s ps hne hrest => ?_⟩
  simp only [Spring.solve]
  by_cases h1 : (getP ps s.p1_index).inv_mass + (getP ps s.p2_index).inv_mass < EPSILON
  · rw [if_pos h1]; exact ⟨rfl, rfl⟩
  · rw [if_neg h1]
    by_cases h2 : ((getP ps s.p1_index).pos - (getP ps s.p2_index).pos).length < EPSILON
    · rw [if_pos h2]; exact ⟨rfl, rfl⟩
    · rw [if_neg h2]
      have hzero : ((getP ps s.p1_index).pos - (getP ps s.p2_index).pos) *
          ((((getP ps s.p1_index).pos - (getP ps s.p2_index).pos).length - s.rest_length) /
            ((getP ps s.p1_index).pos - (getP ps s.p2_index).pos).length) *
          (s.stiffness / ((getP ps s.p1_index).inv_mass + (getP ps s.p2_index).inv_mass)) =
          Vec2.mk 0 0 := by
        rw [hrest, sub_self, zero_div, smul_zero_vec, zero_vec_smul]
      rw [hzero]
      constructor
      · rw [posAt_set_ne _ (Ne.symm hne),
          posAt_set_same (by simp [sub_zero_vec, zero_vec_smul])]
      · rw [posAt_set_same (by simp [add_zero_vec, zero_vec_smul, getP_set_ne ps hne])]
        exact posAt_set_ne ps hne _

/-- C5 (witness): a spring built over particles at `(0,0)` and `(3,0)` is at
its rest distance, and `solve` leaves both positions unchanged. -/
theorem spec2_C5_witness :
    (Spring.new 0 1 (1 / 2) [Particle.new 0 0, Particle.new 3 0]).p1_index ≠
      (Spring.new 0 1 (1 / 2) [Particle.new 0 0, Particle.new 3 0]).p2_index ∧
    posAt ((Spring.new 0 1 (1 / 2) [Particle.new 0 0, Particle.new 3 0]).solve
        [Particle.new 0 0, Particle.new 3 0]) 0 =
      posAt [Particle.new 0 0, Particle.new 3 0] 0 ∧
    posAt ((Spring.new 0 1 (1 / 2) [Particle.new 0 0, Particle.new 3 0]).solve
        [Particle.new 0 0, Particle.new 3 0]) 1 =
      posAt [Particle.new 0 0, Particle.new 3 0] 1 := by
  have h := spec2_C5_spring.2 (Spring.new 0 1 (1 / 2) [Particle.new 0 0, Particle.new 3 0])
    [Particle.new 0 0, Particle.new 3 0] (fun hc => by simp [Spring.new] at hc) rfl
  exact ⟨fun hc => by simp [Spring.new] at hc, h.1, h.2⟩

/-- C7: degenerate geometry is a silent no-op — `Spring::solve` leaves the
store untouched when the total inverse mass or the current distance is below
epsilon, the pairwise collision response leaves a coincident pair's positions
unchanged, and `calculate_center_of_mass` keeps the cached centroid when the
group's total mass is below epsilon. -/
theorem spec2_C7_degenerate :
    (∀ (s : Spring) (ps : List Particle),
       (getP ps s.p1_index).inv_mass + (getP ps s.p2_index).inv_mass < EPSILON ∨
       ((getP ps s.p1_index).pos - (getP ps s.p2_index).pos).length < EPSILON →
       s.solve ps = ps) ∧
    (∀ (ps : List Particle) (i j : ℕ), (getP ps i).pos = (getP ps j).pos →
       posAt (collidePair ps (i, j)) i = posAt ps i ∧
       posAt (collidePair ps (i, j)) j = posAt ps j) ∧
    (∀ (c : ShapeMatchingConstraint) (ps : List Particle),
       (c.particle_indices.map (fun i => massOf (getP ps i))).sum < EPSILON →
       (c.calculate_center_of_mass ps).center_of_mass = c.center_of_mass) := by
  refine ⟨fun s ps h => ?_, fun ps i j h => ?_, fun c ps h => ?_⟩
  · simp only [Spring.solve]
    rcases h with h | h
    · rw [if_pos h]
    · by_cases h1 : (getP ps s.p1_index).inv_mass + (getP ps s.p2_index).inv_mass < EPSILON
      · rw [if_pos h1]
      · rw [if_neg h1, if_pos h]
  · simp only [collidePair]
    have hdiff : (getP ps i).pos - (getP ps j).pos = Vec2.mk 0 0 := by
      rw [h]; ext <;> simp
    by_cases hg : ((getP ps i).pos - (getP ps j).pos).length_squared <
        ((getP ps i).radius + (getP ps j).radius) * ((getP ps i).radius + (getP ps j).radius)
    · rw [if_pos hg]
      by_cases hm : (getP ps i).inv_mass + (getP ps j).inv_mass < EPSILON
      · rw [if_pos hm]; exact ⟨rfl, rfl⟩
      · rw [if_neg hm]
        have hcorr : ((getP ps i).pos - (getP ps j).pos).normalize *
            ((((getP ps i).radius + (getP ps j).radius) -
              Real.sqrt (((getP ps i).pos - (getP ps j).pos).length_squared)) /
              ((getP ps i).inv_mass + (getP ps j).inv_mass)) = Vec2.mk 0 0 := by
          rw [hdiff, normalize_zero_vec, zero_vec_smul]
        rw [hcorr]
        by_cases hij : i = j
        · subst hij
          rw [List.set_set]
          constructor <;>
            rw [posAt_set_same (by simp [add_zero_vec, sub_zero_vec, zero_vec_smul])]
        · constructor
          · rw [posAt_set_ne _ (Ne.symm hij),
              posAt_set_same (by simp [add_zero_vec, zero_vec_smul])]
          · rw [posAt_set_same (by simp [sub_zero_vec, zero_vec_smul, getP_set_ne ps hij])]
            exact posAt_set_ne ps hij _
    · rw [if_neg hg]; exact ⟨rfl, rfl⟩
  · simp only [ShapeMatchingConstraint.calculate_center_of_mass]
    rw [foldl_add_eq_sum (fun i => massOf (getP ps i)) c.particle_indices 0, zero_add, if_neg]
    exact not_lt_of_le (le_of_lt (lt_of_lt_of_le h (le_of_eq rfl)))

/-- C7 (witness): a spring over two massless particles is a no-op, a
coincident pair keeps its position, and a massless shape group keeps its
cached centroid `(5,6)`. -/
theorem spec2_C7_witness :
    ((getP [{ Particle.new 0 0 with inv_mass := 0 }, { Particle.new 3 0 with inv_mass := 0 }]
        (Spring.mk 0 1 3 1).p1_index).inv_mass +
      (getP [{ Particle.new 0 0 with inv_mass := 0 }, { Particle.new 3 0 with inv_mass := 0 }]
        (Spring.mk 0 1 3 1).p2_index).inv_mass < EPSILON) ∧
    (Spring.mk 0 1 3 1).solve
        [{ Particle.new 0 0 with inv_mass := 0 }, { Particle.new 3 0 with inv_mass := 0 }] =
      [{ Particle.new 0 0 with inv_mass := 0 }, { Particle.new 3 0 with inv_mass := 0 }] ∧
    (getP [Particle.new 1 2, Particle.new 1 2] 0).pos =
      (getP [Particle.new 1 2, Particle.new 1 2] 1).pos ∧
    posAt (collidePair [Particle.new 1 2, Particle.new 1 2] (0, 1)) 0 =
      posAt [Particle.new 1 2, Particle.new 1 2] 0 ∧
    ((ShapeMatchingConstraint.mk [0] 1 [Vec2.mk 0 0] (Vec2.mk 5 6)).particle_indices.map
        (fun i => massOf (getP [{ Particle.new 0 0 with inv_mass := 0 }] i))).sum < EPSILON ∧
    ((ShapeMatchingConstraint.mk [0] 1 [Vec2.mk 0 0] (Vec2.mk 5 6)).calculate_center_of_mass
        [{ Particle.new 0 0 with inv_mass := 0 }]).center_of_mass =
      (ShapeMatchingConstraint.mk [0] 1 [Vec2.mk 0 0] (Vec2.mk 5 6)).center_of_mass := by
  have ha : (getP [{ Particle.new 0 0 with inv_mass := 0 },
        { Particle.new 3 0 with inv_mass := 0 }] (Spring.mk 0 1 3 1).p1_index).inv_mass +
      (getP [{ Particle.new 0 0 with inv_mass := 0 }, { Particle.new 3 0 with inv_mass := 0 }]
        (Spring.mk 0 1 3 1).p2_index).inv_mass < EPSILON := by
    norm_num [getP, Particle.new, EPSILON]
  have hb : (getP [Particle.new 1 2, Particle.new 1 2] 0).pos =
      (getP [Particle.new 1 2, Particle.new 1 2] 1).pos := rfl
  have hc : ((ShapeMatchingConstraint.mk [0] 1 [Vec2.mk 0 0] (Vec2.mk 5 6)).particle_indices.map
      (fun i => massOf (getP [{ Particle.new 0 0 with inv_mass := 0 }] i))).sum < EPSILON := by
    norm_num [getP, Particle.new, massOf, EPSILON]
  exact ⟨ha, spec2_C7_degenerate.1 _ _ (Or.inl ha), hb,
    (spec2_C7_degenerate.2.1 _ 0 1 hb).1, hc, spec2_C7_degenerate.2.2 _ _ hc⟩

theorem length_squared_eq (v : Vec2) : v.length_squared = v.length * v.length :=
  (Vec2.sq_length v).symm

theorem sqrt_length_squared (v : Vec2) : Real.sqrt v.length_squared = v.length := rfl

theorem smul_smul_vec (v : Vec2) (a b : ℝ) : v * a * b = v * (a * b) := by
  ext <;> simp <;> ring

theorem pairList_two : pairList 2 = [(0, 1)] := rfl

theorem solveCollisions_two (a b : Particle) :
    solveCollisions [a, b] = collidePair [a, b] (0, 1) := rfl

theorem collidePair_two_hit (a b : Particle)
    (hg : (a.pos - b.pos).length_squared < (a.radius + b.radius) * (a.radius + b.radius))
    (hm : ¬ a.inv_mass + b.inv_mass < EPSILON) :
    collidePair [a, b] (0, 1) =
      [{ a with pos := a.pos + (a.pos - b.pos).normalize *
          ((a.radius + b.radius - (a.pos - b.pos).length) / (a.inv_mass + b.inv_mass)) *
          a.inv_mass },
       { b with pos := b.pos - (a.pos - b.pos).normalize *
          ((a.radius + b.radius - (a.pos - b.pos).length) / (a.inv_mass + b.inv_mass)) *
          b.inv_mass }] := by
  simp only [collidePair, getP, List.getD_cons_zero, List.getD_cons_succ]
  rw [if_pos hg, if_neg hm, sqrt_length_squared]
  rfl

theorem collidePair_two_miss (a b : Particle)
    (hg : ¬ (a.pos - b.pos).length_squared < (a.radius + b.radius) * (a.radius + b.radius)) :
    collidePair [a, b] (0, 1) = [a, b] := by
  simp only [collidePair, getP, List.getD_cons_zero, List.getD_cons_succ]
  rw [if_neg hg]

theorem posAt_pair_zero (a b : Particle) : posAt [a, b] 0 = a.pos := rfl

theorem posAt_pair_one (a b : Particle) : posAt [a, b] 1 = b.pos := rfl

/-- C6 (amended): for a two-particle store with both particles free, total
inverse mass at least epsilon, and initial separation strictly between
epsilon and `r1+r2`, a single collision pass moves the separation exactly to
`r1+r2`, and a further pass leaves the store unchanged (monotone approach
with no overshoot); the extra `ε < distance` hypothesis is required because
a pair closer than epsilon is never pushed apart at all. -/
theorem spec2_C6_theorem :
    ∀ p q : Particle,
      0 < p.inv_mass → 0 < q.inv_mass →
      EPSILON ≤ p.inv_mass + q.inv_mass →
      EPSILON < (p.pos - q.pos).length →
      (p.pos - q.pos).length < p.radius + q.radius →
      (posAt (solveCollisions [p, q]) 0 - posAt (solveCollisions [p, q]) 1).length
          = p.radius + q.radius ∧
      solveCollisions (solveCollisions [p, q]) = solveCollisions [p, q] := by
  intro p q hp hq htot heps hover
  have hd0 : (0 : ℝ) < (p.pos - q.pos).length := lt_trans eps_pos heps
  have ht0 : (0 : ℝ) < p.inv_mass + q.inv_mass := lt_of_lt_of_le eps_pos htot
  have hmin0 : (0 : ℝ) < p.radius + q.radius := lt_trans hd0 hover
  have hm : ¬ p.inv_mass + q.inv_mass < EPSILON := not_lt_of_le htot
  have hg : (p.pos - q.pos).length_squared <
      (p.radius + q.radius) * (p.radius + q.radius) := by
    rw [length_squared_eq]
    exact mul_self_lt_mul_self (le_of_lt hd0) hover
  have hn : (p.pos - q.pos).normalize = (p.pos - q.pos) * (1 / (p.pos - q.pos).length) := by
    rw [Vec2.normalize, if_pos heps]
  have hd' : (p.pos - q.pos).length ≠ 0 := ne_of_gt hd0
  have ht' : p.inv_mass + q.inv_mass ≠ 0 := ne_of_gt ht0
  obtain ⟨P1, Q1, hPQ, hrad1, hrad2, hvec⟩ :
      ∃ P1 Q1 : Particle, collidePair [p, q] (0, 1) = [P1, Q1] ∧ P1.radius = p.radius ∧
        Q1.radius = q.radius ∧ P1.pos - Q1.pos =
          (p.pos - q.pos) * ((p.radius + q.radius) / (p.pos - q.pos).length) := by
    refine ⟨_, _, collidePair_two_hit p q hg hm, rfl, rfl, ?_⟩
    rw [hn]
    ext <;> simp <;> field_simp <;> ring
  have hsep : (P1.pos - Q1.pos).length = p.radius + q.radius := by
    rw [hvec, length_smul, abs_of_pos (div_pos hmin0 hd0), div_mul_cancel₀ _ hd']
  constructor
  · rw [solveCollisions_two, hPQ, posAt_pair_zero, posAt_pair_one, hsep]
  · rw [solveCollisions_two, hPQ, solveCollisions_two]
    apply collidePair_two_miss
    rw [length_squared_eq, hsep, hrad1, hrad2]
    exact lt_irrefl _

/-- C6 (witness): two free unit-radius particles at distance 1 are pushed to
separation exactly 2 by one collision pass. -/
theorem spec2_C6_witness :
    EPSILON < (({ Particle.new 0 0 with radius := 1 } : Particle).pos -
        ({ Particle.new 1 0 with radius := 1 } : Particle).pos).length ∧
    (({ Particle.new 0 0 with radius := 1 } : Particle).pos -
        ({ Particle.new 1 0 with radius := 1 } : Particle).pos).length <
      ({ Particle.new 0 0 with radius := 1 } : Particle).radius +
        ({ Particle.new 1 0 with radius := 1 } : Particle).radius ∧
    (posAt (solveCollisions [{ Particle.new 0 0 with radius := 1 },
          { Particle.new 1 0 with radius := 1 }]) 0 -
        posAt (solveCollisions [{ Particle.new 0 0 with radius := 1 },
          { Particle.new 1 0 with radius := 1 }]) 1).length =
      ({ Particle.new 0 0 with radius := 1 } : Particle).radius +
        ({ Particle.new 1 0 with radius := 1 } : Particle).radius := by
  have hv : ({ Particle.new 0 0 with radius := 1 } : Particle).pos -
      ({ Particle.new 1 0 with radius := 1 } : Particle).pos = Vec2.mk (-1) 0 := by
    ext <;> simp [Particle.new] <;> norm_num
  have hlen : (({ Particle.new 0 0 with radius := 1 } : Particle).pos -
      ({ Particle.new 1 0 with radius := 1 } : Particle).pos).length = 1 := by
    rw [hv]; exact length_eval _ _ 1 (by norm_num) (by norm_num)
  have h4 : EPSILON < (({ Particle.new 0 0 with radius := 1 } : Particle).pos -
      ({ Particle.new 1 0 with radius := 1 } : Particle).pos).length := by
    rw [hlen]; norm_num [EPSILON]
  have h5 : (({ Particle.new 0 0 with radius := 1 } : Particle).pos -
      ({ Particle.new 1 0 with radius := 1 } : Particle).pos).length <
      ({ Particle.new 0 0 with radius := 1 } : Particle).radius +
        ({ Particle.new 1 0 with radius := 1 } : Particle).radius := by
    rw [hlen]; norm_num [Particle.new]
  exact ⟨h4, h5, (spec2_C6_theorem _ _ (by norm_num [Particle.new]) (by norm_num [Particle.new])
    (by norm_num [Particle.new, EPSILON]) h4 h5).1⟩

/-- C6 (counterexample): two free overlapping particles at the positive
sub-epsilon distance `2⁻⁵³` (radii 8, so heavily overlapped) are left exactly
in place by the collision pass — the zero-vector guard in `normalize` kills
the push — so repeated passes never move the separation toward `r1+r2`. -/
theorem spec2_C6_counterexample :
    (0 : ℝ) < ((getP [Particle.new 0 0, Particle.new (1 / 2 ^ 53) 0] 0).pos -
        (getP [Particle.new 0 0, Particle.new (1 / 2 ^ 53) 0] 1).pos).length ∧
    ((getP [Particle.new 0 0, Particle.new (1 / 2 ^ 53) 0] 0).pos -
        (getP [Particle.new 0 0, Particle.new (1 / 2 ^ 53) 0] 1).pos).length <
      (getP [Particle.new 0 0, Particle.new (1 / 2 ^ 53) 0] 0).radius +
        (getP [Particle.new 0 0, Particle.new (1 / 2 ^ 53) 0] 1).radius ∧
    (getP [Particle.new 0 0, Particle.new (1 / 2 ^ 53) 0] 0).inv_mass = 1 ∧
    (getP [Particle.new 0 0, Particle.new (1 / 2 ^ 53) 0] 1).inv_mass = 1 ∧
    solveCollisions [Particle.new 0 0, Particle.new (1 / 2 ^ 53) 0] =
      [Particle.new 0 0, Particle.new (1 / 2 ^ 53) 0] := by
  have hv : (getP [Particle.new 0 0, Particle.new (1 / 2 ^ 53) 0] 0).pos -
      (getP [Particle.new 0 0, Particle.new (1 / 2 ^ 53) 0] 1).pos =
      Vec2.mk (-(1 / 2 ^ 53)) 0 := by
    ext <;> simp [getP, Particle.new] <;> norm_num
  have hlen : ((getP [Particle.new 0 0, Particle.new (1 / 2 ^ 53) 0] 0).pos -
      (getP [Particle.new 0 0, Particle.new (1 / 2 ^ 53) 0] 1).pos).length = 1 / 2 ^ 53 := by
    rw [hv]; exact length_eval _ _ (1 / 2 ^ 53) (by norm_num) (by norm_num)
  have hg : ((Particle.new 0 0).pos - (Particle.new (1 / 2 ^ 53) 0).pos).length_squared <
      ((Particle.new 0 0).radius + (Particle.new (1 / 2 ^ 53) 0).radius) *
        ((Particle.new 0 0).radius + (Particle.new (1 / 2 ^ 53) 0).radius) := by
    simp only [Vec2.length_squared, Particle.new]
    norm_num
  have hm : ¬ (Particle.new 0 0).inv_mass + (Particle.new (1 / 2 ^ 53) 0).inv_mass < EPSILON := by
    norm_num [Particle.new, EPSILON]
  have hn : ((Particle.new 0 0).pos - (Particle.new (1 / 2 ^ 53) 0).pos).normalize =
      Vec2.mk 0 0 := by
    rw [Vec2.normalize, if_neg]
    have : (Particle.new 0 0).pos - (Particle.new (1 / 2 ^ 53) 0).pos =
        Vec2.mk (-(1 / 2 ^ 53)) 0 := by ext <;> simp [Particle.new] <;> norm_num
    rw [this, length_eval _ _ (1 / 2 ^ 53) (by norm_num) (by norm_num)]
    norm_num [EPSILON]
  refine ⟨by rw [hlen]; norm_num, by rw [hlen]; norm_num [getP, Particle.new],
    by norm_num [getP, Particle.new], by norm_num [getP, Particle.new], ?_⟩
  rw [solveCollisions_two, collidePair_two_hit _ _ hg hm, hn]
  have h1 : (Particle.new 0 0).pos + Vec2.mk 0 0 *
      (((Particle.new 0 0).radius + (Particle.new (1 / 2 ^ 53) 0).radius -
        ((Particle.new 0 0).pos - (Particle.new (1 / 2 ^ 53) 0).pos).length) /
        ((Particle.new 0 0).inv_mass + (Particle.new (1 / 2 ^ 53) 0).inv_mass)) *
      (Particle.new 0 0).inv_mass = (Particle.new 0 0).pos := by
    rw [zero_vec_smul, zero_vec_smul, add_zero_vec]
  have h2 : (Particle.new (1 / 2 ^ 53) 0).pos - Vec2.mk 0 0 *
      (((Particle.new 0 0).radius + (Particle.new (1 / 2 ^ 53) 0).radius -
        ((Particle.new 0 0).pos - (Particle.new (1 / 2 ^ 53) 0).pos).length) /
        ((Particle.new 0 0).inv_mass + (Particle.new (1 / 2 ^ 53) 0).inv_mass)) *
      (Particle.new (1 / 2 ^ 53) 0).inv_mass = (Particle.new (1 / 2 ^ 53) 0).pos := by
    rw [zero_vec_smul, zero_vec_smul, sub_zero_vec]
  rw [h1, h2]

/-! ### Metadata preservation through the pipeline -/

theorem metaPres_refl (ps : List Particle) : MetaPres ps ps :=
  ⟨rfl, fun _ => ⟨rfl, rfl, rfl⟩⟩

theorem metaPres_trans {a b c : List Particle} (h1 : MetaPres a b) (h2 : MetaPres b c) :
    MetaPres a c :=
  ⟨h2.1.trans h1.1, fun i =>
    ⟨((h2.2 i).1).trans (h1.2 i).1, ((h2.2 i).2.1).trans (h1.2 i).2.1,
      ((h2.2 i).2.2).trans (h1.2 i).2.2⟩⟩

theorem metaPres_set (ps : List Particle) (i : ℕ) (a : Particle)
    (h1 : a.inv_mass = (getP ps i).inv_mass) (h2 : a.radius = (getP ps i).radius)
    (h3 : a.is_fixed = (getP ps i).is_fixed) : MetaPres ps (ps.set i a) := by
  refine ⟨List.length_set .., fun j => ?_⟩
  by_cases hj : i = j
  · subst hj
    by_cases hl : i < ps.length
    · rw [getP_set_self hl]; exact ⟨h1, h2, h3⟩
    · rw [List.set_eq_of_length_le (le_of_not_lt hl)]; exact ⟨rfl, rfl, rfl⟩
  · rw [getP_set_ne ps hj]; exact ⟨rfl, rfl, rfl⟩

theorem metaPres_map (f : Particle → Particle)
    (hf : ∀ p, (f p).inv_mass = p.inv_mass ∧ (f p).radius = p.radius ∧
      (f p).is_fixed = p.is_fixed) (ps : List Particle) : MetaPres ps (ps.map f) := by
  refine ⟨List.length_map .., fun i => ?_⟩
  by_cases hl : i < ps.length
  · rw [getP_map f ps hl]; exact hf _
  · rw [getP_oob (by simpa using hl), getP_oob hl]
    exact ⟨rfl, rfl, rfl⟩

theorem metaPres_foldl {α : Type} (f : List Particle → α → List Particle)
    (hf : ∀ x a, MetaPres x (f x a)) (l : List α) (ps : List Particle) :
    MetaPres ps (l.foldl f ps) :=
  foldl_inv (MetaPres ps) f l ps (metaPres_refl ps)
    (fun x a _ hx => metaPres_trans hx (hf x a))

theorem metaPres_spring (s : Spring) (ps : List Particle) : MetaPres ps (s.solve ps) := by
  simp only [Spring.solve]
  split_ifs with h1 h2
  · exact metaPres_refl ps
  · exact metaPres_refl ps
  · have m1 := metaPres_set ps s.p1_index
      { getP ps s.p1_index with
        pos := (getP ps s.p1_index).pos -
          ((getP ps s.p1_index).pos - (getP ps s.p2_index).pos) *
            ((((getP ps s.p1_index).pos - (getP ps s.p2_index).pos).length - s.rest_length) /
              ((getP ps s.p1_index).pos - (getP ps s.p2_index).pos).length) *
            (s.stiffness / ((getP ps s.p1_index).inv_mass + (getP ps s.p2_index).inv_mass)) *
            (getP ps s.p1_index).inv_mass } rfl rfl rfl
    exact metaPres_trans m1 (metaPres_set _ s.p2_index _
      ((m1.2 s.p2_index).1).symm ((m1.2 s.p2_index).2.1).symm ((m1.2 s.p2_index).2.2).symm)

theorem metaPres_collidePair (ps : List Particle) (ij : ℕ × ℕ) :
    MetaPres ps (collidePair ps ij) := by
  simp only [collidePair]
  split_ifs with h1 h2
  · exact metaPres_refl ps
  · have m1 := metaPres_set ps ij.1
      { getP ps ij.1 with
        pos := (getP ps ij.1).pos +
          ((getP ps ij.1).pos - (getP ps ij.2).pos).normalize *
            (((getP ps ij.1).radius + (getP ps ij.2).radius -
              Real.sqrt ((getP ps ij.1).pos - (getP ps ij.2).pos).length_squared) /
              ((getP ps ij.1).inv_mass + (getP ps ij.2).inv_mass)) *
            (getP ps ij.1).inv_mass } rfl rfl rfl
    exact metaPres_trans m1 (metaPres_set _ ij.2 _
      ((m1.2 ij.2).1).symm ((m1.2 ij.2).2.1).symm ((m1.2 ij.2).2.2).symm)
  · exact metaPres_refl ps

theorem metaPres_shapeApply (com : Vec2) (r : Mat2) (st : ℝ) (l : List (ℕ × Vec2))
    (ps : List Particle) : MetaPres ps (shapeApply com r st l ps) := by
  refine metaPres_foldl _ (fun x iq => ?_) l ps
  by_cases hf : (getP x iq.1).is_fixed
  · simp only [hf, if_true]; exact metaPres_refl x
  · simp only [hf, if_false]
    exact metaPres_set x iq.1 _ rfl rfl (by simp [hf])

theorem metaPres_shapeSolve (c : ShapeMatchingConstraint) (ps : List Particle) :
    MetaPres ps (c.solve ps).2 := by
  simp only [ShapeMatchingConstraint.solve]
  exact metaPres_shapeApply _ _ _ _ ps

theorem metaPres_solveBody (ps : List Particle) (sb : SoftBody) :
    MetaPres ps (solveBody ps sb).1 := by
  simp only [solveBody]
  have m1 : MetaPres ps (sb.springs.foldl (fun acc s => s.solve acc) ps) :=
    metaPres_foldl _ (fun x s => metaPres_spring s x) sb.springs ps
  cases sb.shape_constraint with
  | none => exact m1
  | some sc => exact metaPres_trans m1 (metaPres_shapeSolve sc _)

theorem metaPres_solveBodies_aux (sbs : List SoftBody) :
    ∀ (ps : List Particle) (acc : List SoftBody),
      MetaPres ps ((sbs.foldl
        (fun acc sb =>
          let r := solveBody acc.1 sb
          (r.1, acc.2 ++ [r.2])) (ps, acc)).1) := by
  induction sbs with
  | nil => exact fun ps acc => metaPres_refl ps
  | cons hd tl ih =>
      intro ps acc
      exact metaPres_trans (metaPres_solveBody ps hd) (ih _ _)

theorem metaPres_solveBodies (st : List Particle × List SoftBody) :
    MetaPres st.1 (solveBodies st).1 :=
  metaPres_solveBodies_aux st.2 st.1 []

theorem metaPres_solveCollisions (ps : List Particle) : MetaPres ps (solveCollisions ps) :=
  metaPres_foldl collidePair (fun x ij => metaPres_collidePair x ij) _ ps

theorem metaPres_boundary (cfg : SimulationConfig) (ps : List Particle) :
    MetaPres ps (applyBoundaryConditions cfg ps) := by
  rw [applyBoundaryConditions]
  cases cfg.bounds with
  | none => exact metaPres_refl ps
  | some mm =>
      obtain ⟨mn, mx⟩ := mm
      exact metaPres_map (fun p => { p with pos := clampPos mn mx p })
        (fun p => ⟨rfl, rfl, rfl⟩) ps

theorem metaPres_integrate (g : Vec2) (dt : ℝ) (ps : List Particle) :
    MetaPres ps (integrate g dt ps) := by
  refine metaPres_map _ (fun p => ?_) ps
  by_cases hf : p.is_fixed <;> simp [integrate, hf]

theorem metaPres_velUpdate (cfg : SimulationConfig) (dt : ℝ) (ps : List Particle) :
    MetaPres ps (velocityUpdate cfg dt ps) := by
  refine metaPres_map _ (fun p => ?_) ps
  by_cases hf : p.is_fixed <;> simp [velocityUpdate, hf]

theorem metaPres_relaxOnce (cfg : SimulationConfig) (st : List Particle × List SoftBody) :
    MetaPres st.1 (relaxOnce cfg st).1 := by
  simp only [relaxOnce]
  exact metaPres_trans (metaPres_solveBodies st)
    (metaPres_trans (metaPres_solveCollisions _) (metaPres_boundary cfg _))

theorem metaPres_iterate (cfg : SimulationConfig) (n : ℕ) (st : List Particle × List SoftBody) :
    MetaPres st.1 ((relaxOnce cfg)^[n] st).1 := by
  induction n with
  | zero => exact metaPres_refl st.1
  | succ m ih =>
      rw [Function.iterate_succ_apply']
      exact metaPres_trans ih (metaPres_relaxOnce cfg _)

theorem metaPres_step (sim : Simulation) (dt : ℝ) :
    MetaPres sim.particles (sim.step dt).particles := by
  simp only [Simulation.step]
  exact metaPres_trans (metaPres_integrate _ _ _)
    (metaPres_trans (metaPres_iterate _ _ _) (metaPres_velUpdate _ _ _))

theorem fixedAt_of_metaPres {ps ps' : List Particle} {i : ℕ} (m : MetaPres ps ps')
    (h : FixedAt ps i) : FixedAt ps' i :=
  ⟨((m.2 i).2.2).trans h.1, ((m.2 i).1).trans h.2⟩

/-! ### Fixed particles are not moved by integration, springs, shape
matching, or collisions -/

theorem posAt_double_set (ps : List Particle) {i : ℕ} (p1 p2 : ℕ) (a b : Particle)
    (ha : p1 = i → a.pos = (getP ps i).pos) (hb : p2 = i → b.pos = (getP ps i).pos) :
    posAt ((ps.set p1 a).set p2 b) i = posAt ps i := by
  have hgp : (getP (ps.set p1 a) i).pos = (getP ps i).pos := by
    by_cases hp1 : p1 = i
    · subst hp1
      by_cases hl : p1 < ps.length
      · rw [getP_set_self hl, ha rfl]
      · rw [List.set_eq_of_length_le (le_of_not_lt hl)]
    · rw [getP_set_ne ps hp1]
  by_cases hp2 : p2 = i
  · subst hp2
    rw [posAt_set_same ((hb rfl).trans hgp.symm)]
    exact hgp
  · rw [posAt_set_ne _ hp2]
    exact hgp

theorem posFixed_integrate (g : Vec2) (dt : ℝ) (ps : List Particle) (i : ℕ)
    (h : (getP ps i).is_fixed = true) : posAt (integrate g dt ps) i = posAt ps i := by
  by_cases hl : i < ps.length
  · simp only [posAt, integrate]
    rw [getP_map _ ps hl]
    simp [h]
  · rw [posAt, getP_oob (by simpa [integrate] using hl), posAt, getP_oob hl]

theorem posFixed_spring (s : Spring) (ps : List Particle) (i : ℕ) (h : FixedAt ps i) :
    posAt (s.solve ps) i = posAt ps i := by
  simp only [Spring.solve]
  split_ifs with h1 h2
  · rfl
  · rfl
  · refine posAt_double_set ps s.p1_index s.p2_index _ _ (fun e => ?_) (fun e => ?_)
    · simp [e, h.2, smul_zero_vec, sub_zero_vec, add_zero_vec]
    · simp [e, h.2, smul_zero_vec, sub_zero_vec, add_zero_vec]

theorem posFixed_collidePair (ps : List Particle) (ij : ℕ × ℕ) (i : ℕ) (h : FixedAt ps i) :
    posAt (collidePair ps ij) i = posAt ps i := by
  simp only [collidePair]
  split_ifs with h1 h2
  · rfl
  · refine posAt_double_set ps ij.1 ij.2 _ _ (fun e => ?_) (fun e => ?_)
    · simp [e, h.2, smul_zero_vec, sub_zero_vec, add_zero_vec]
    · simp [e, h.2, smul_zero_vec, sub_zero_vec, add_zero_vec]
  · rfl

theorem posFixed_shapeApply (com : Vec2) (r : Mat2) (st : ℝ) (l : List (ℕ × Vec2))
    (ps : List Particle) (i : ℕ) (h : FixedAt ps i) :
    posAt (shapeApply com r st l ps) i = posAt ps i := by
  have key : MetaPres ps (shapeApply com r st l ps) ∧
      posAt (shapeApply com r st l ps) i = posAt ps i := by
    refine foldl_inv (fun x => MetaPres ps x ∧ posAt x i = posAt ps i) _ l ps
      ⟨metaPres_refl ps, rfl⟩ (fun x iq _ hx => ?_)
    by_cases hf : (getP x iq.1).is_fixed = true
    · simp only [hf, if_true]
      exact hx
    · simp only [hf, if_false]
      have hne : iq.1 ≠ i := by
        intro e
        rw [e] at hf
        exact hf (fixedAt_of_metaPres hx.1 h).1
      exact ⟨metaPres_trans hx.1 (metaPres_set x iq.1 _ rfl rfl (by simp [hf])),
        (posAt_set_ne x hne _).trans hx.2⟩
  exact key.2

theorem posFixed_shapeSolve (c : ShapeMatchingConstraint) (ps : List Particle) (i : ℕ)
    (h : FixedAt ps i) : posAt (c.solve ps).2 i = posAt ps i := by
  simp only [ShapeMatchingConstraint.solve]
  exact posFixed_shapeApply _ _ _ _ ps i h

theorem posFixed_foldl {α : Type} (f : List Particle → α → List Particle)
    (hmeta : ∀ x a, MetaPres x (f x a))
    (hpos : ∀ (x : List Particle) (a : α) (j : ℕ), FixedAt x j → posAt (f x a) j = posAt x j)
    (l : List α) (ps : List Particle) (i : ℕ) (h : FixedAt ps i) :
    posAt (l.foldl f ps) i = posAt ps i := by
  have key := foldl_inv (fun x => MetaPres ps x ∧ posAt x i = posAt ps i) f l ps
    ⟨metaPres_refl ps, rfl⟩ (fun x a _ hx =>
      ⟨metaPres_trans hx.1 (hmeta x a),
        (hpos x a i (fixedAt_of_metaPres hx.1 h)).trans hx.2⟩)
  exact key.2

theorem posFixed_solveCollisions (ps : List Particle) (i : ℕ) (h : FixedAt ps i) :
    posAt (solveCollisions ps) i = posAt ps i :=
  posFixed_foldl collidePair (fun x ij => metaPres_collidePair x ij)
    (fun x ij j hj => posFixed_collidePair x ij j hj) _ ps i h

theorem posFixed_solveBody (ps : List Particle) (sb : SoftBody) (i : ℕ) (h : FixedAt ps i) :
    posAt (solveBody ps sb).1 i = posAt ps i := by
  simp only [solveBody]
  have m1 : MetaPres ps (sb.springs.foldl (fun acc s => s.solve acc) ps) :=
    metaPres_foldl _ (fun x s => metaPres_spring s x) sb.springs ps
  have p1 : posAt (sb.springs.foldl (fun acc s => s.solve acc) ps) i = posAt ps i :=
    posFixed_foldl _ (fun x s => metaPres_spring s x)
      (fun x s j hj => posFixed_spring s x j hj) sb.springs ps i h
  cases sb.shape_constraint with
  | none => exact p1
  | some sc =>
      exact (posFixed_shapeSolve sc _ i (fixedAt_of_metaPres m1 h)).trans p1

theorem posFixed_solveBodies (st : List Particle × List SoftBody) (i : ℕ)
    (h : FixedAt st.1 i) : posAt (solveBodies st).1 i = posAt st.1 i := by
  suffices key : ∀ (sbs : List SoftBody) (ps : List Particle) (acc : List SoftBody),
      FixedAt ps i →
      posAt ((sbs.foldl
        (fun acc sb =>
          let r := solveBody acc.1 sb
          (r.1, acc.2 ++ [r.2])) (ps, acc)).1) i = posAt ps i by
    exact key st.2 st.1 [] h
  intro sbs
  induction sbs with
  | nil => exact fun ps acc _ => rfl
  | cons hd tl ih =>
      intro ps acc hps
      exact (ih _ _ (fixedAt_of_metaPres (metaPres_solveBody ps hd) hps)).trans
        (posFixed_solveBody ps hd i hps)

/-! ### Boundary clamping -/

theorem posAt_boundary (mn mx : Vec2) (cfg : SimulationConfig)
    (hb : cfg.bounds = some (mn, mx)) (ps : List Particle) (i : ℕ) (hl : i < ps.length) :
    posAt (applyBoundaryConditions cfg ps) i = clampPos mn mx (getP ps i) := by
  simp only [applyBoundaryConditions, hb]
  rw [posAt, getP_map _ ps hl]

theorem clampR_idem (v lo hi : ℝ) : clampR (clampR v lo hi) lo hi = clampR v lo hi := by
  simp only [clampR, min_def, max_def]
  split_ifs <;> linarith

theorem clampR_mem (v lo hi : ℝ) (h : lo ≤ hi) : lo ≤ clampR v lo hi ∧ clampR v lo hi ≤ hi :=
  ⟨le_min (le_max_right v lo) h, min_le_right _ _⟩

theorem clampPos_congr (mn mx : Vec2) {p q : Particle} (hpos : p.pos = q.pos)
    (hrad : p.radius = q.radius) : clampPos mn mx p = clampPos mn mx q := by
  simp [clampPos, hpos, hrad]

theorem clampPos_idem (mn mx : Vec2) {p q : Particle} (hpos : q.pos = clampPos mn mx p)
    (hrad : q.radius = p.radius) : clampPos mn mx q = clampPos mn mx p := by
  ext
  · show clampR q.pos.x (mn.x + q.radius) (mx.x - q.radius) =
      clampR p.pos.x (mn.x + p.radius) (mx.x - p.radius)
    rw [hpos, hrad]
    exact clampR_idem _ _ _
  · show clampR q.pos.y (mn.y + q.radius) (mx.y - q.radius) =
      clampR p.pos.y (mn.y + p.radius) (mx.y - p.radius)
    rw [hpos, hrad]
    exact clampR_idem _ _ _

theorem posAt_velUpdate (cfg : SimulationConfig) (dt : ℝ) (ps : List Particle) (i : ℕ) :
    posAt (velocityUpdate cfg dt ps) i = posAt ps i := by
  by_cases hl : i < ps.length
  · simp only [posAt, velocityUpdate]
    rw [getP_map _ ps hl]
    by_cases hf : (getP ps i).is_fixed = true <;> simp [hf]
  · rw [posAt, getP_oob (by simpa [velocityUpdate] using hl), posAt, getP_oob hl]

theorem posFixed_relaxOnce (cfg : SimulationConfig) (mn mx : Vec2)
    (hb : cfg.bounds = some (mn, mx)) (st : List Particle × List SoftBody) (i : ℕ)
    (h : FixedAt st.1 i) (hl : i < st.1.length) :
    posAt (relaxOnce cfg st).1 i = clampPos mn mx (getP st.1 i) := by
  simp only [relaxOnce]
  have m1 := metaPres_solveBodies st
  have m2 := metaPres_solveCollisions (solveBodies st).1
  have hlen : i < (solveCollisions (solveBodies st).1).length := by
    rw [m2.1, m1.1]; exact hl
  rw [posAt_boundary mn mx cfg hb _ i hlen]
  apply clampPos_congr
  · exact ((posFixed_solveCollisions _ i (fixedAt_of_metaPres m1 h)).trans
      (posFixed_solveBodies st i h) : posAt _ i = posAt st.1 i)
  · exact ((metaPres_trans m1 m2).2 i).2.1

theorem posFixed_iterate (cfg : SimulationConfig) (mn mx : Vec2)
    (hb : cfg.bounds = some (mn, mx)) (n : ℕ) (hn : 1 ≤ n)
    (st : List Particle × List SoftBody) (i : ℕ) (h : FixedAt st.1 i)
    (hl : i < st.1.length) :
    posAt ((relaxOnce cfg)^[n] st).1 i = clampPos mn mx (getP st.1 i) := by
  induction n with
  | zero => omega
  | succ m ih =>
      rw [Function.iterate_succ_apply']
      rcases Nat.eq_zero_or_pos m with h0 | hm
      · subst h0
        simpa using posFixed_relaxOnce cfg mn mx hb st i h hl
      · have hiter := metaPres_iterate cfg m st
        have hfi : FixedAt ((relaxOnce cfg)^[m] st).1 i := fixedAt_of_metaPres hiter h
        have hli : i < ((relaxOnce cfg)^[m] st).1.length := by rw [hiter.1]; exact hl
        rw [posFixed_relaxOnce cfg mn mx hb _ i hfi hli]
        exact clampPos_idem mn mx (ih hm) ((hiter.2 i).2.1)

/-- C2: when bounds are set and at least one solver iteration runs, every
particle of the store ends every `step` inside `[min+radius, max-radius]` on
both axes (whenever that per-particle interval is non-empty), because the
boundary clamp is the last position-modifying phase of each iteration. -/
theorem spec2_C2_boundary :
    ∀ (sim : Simulation) (dt : ℝ) (mn mx : Vec2),
      sim.config.bounds = some (mn, mx) →
      1 ≤ sim.config.solver_iterations →
      ∀ pa ∈ (sim.step dt).particles,
        (mn.x + pa.radius ≤ mx.x - pa.radius →
          mn.x + pa.radius ≤ pa.pos.x ∧ pa.pos.x ≤ mx.x - pa.radius) ∧
        (mn.y + pa.radius ≤ mx.y - pa.radius →
          mn.y + pa.radius ≤ pa.pos.y ∧ pa.pos.y ≤ mx.y - pa.radius) := by
  intro sim dt mn mx hb hn pa hpa
  obtain ⟨m, hm⟩ : ∃ m, sim.config.solver_iterations = m + 1 :=
    ⟨sim.config.solver_iterations - 1, (Nat.succ_pred_eq_of_pos hn).symm⟩
  simp only [Simulation.step, hm, Function.iterate_succ_apply'] at hpa
  simp only [velocityUpdate, List.mem_map] at hpa
  obtain ⟨q, hq, hfq⟩ := hpa
  have hqa : pa.pos = q.pos ∧ pa.radius = q.radius := by
    by_cases hf : q.is_fixed = true <;> simp [hf] at hfq <;> rw [← hfq] <;> exact ⟨rfl, rfl⟩
  simp only [relaxOnce, applyBoundaryConditions, hb, List.mem_map] at hq
  obtain ⟨c, _, hfc⟩ := hq
  have hqc : q.pos = clampPos mn mx c ∧ q.radius = c.radius := by
    rw [← hfc]; exact ⟨rfl, rfl⟩
  have hpc : pa.pos = clampPos mn mx c := hqa.1.trans hqc.1
  have hrc : pa.radius = c.radius := hqa.2.trans hqc.2
  constructor
  · intro hne
    rw [hrc] at hne
    rw [hpc, hrc]
    exact clampR_mem c.pos.x _ _ hne
  · intro hne
    rw [hrc] at hne
    rw [hpc, hrc]
    exact clampR_mem c.pos.y _ _ hne

/-- C2 (witness): the one-particle bounded demo simulation satisfies the
hypotheses, so after a step its particle is inside the shrunken bounds. -/
theorem spec2_C2_witness :
    demoSim.config.bounds = some (⟨0, 0⟩, ⟨10, 10⟩) ∧
    1 ≤ demoSim.config.solver_iterations ∧
    ∀ pa ∈ (demoSim.step 1).particles,
      ((0 : ℝ) + pa.radius ≤ (10 : ℝ) - pa.radius →
        (0 : ℝ) + pa.radius ≤ pa.pos.x ∧ pa.pos.x ≤ (10 : ℝ) - pa.radius) ∧
      ((0 : ℝ) + pa.radius ≤ (10 : ℝ) - pa.radius →
        (0 : ℝ) + pa.radius ≤ pa.pos.y ∧ pa.pos.y ≤ (10 : ℝ) - pa.radius) :=
  ⟨rfl, le_refl 1, spec2_C2_boundary demoSim 1 ⟨0, 0⟩ ⟨10, 10⟩ rfl (le_refl 1)⟩

/-- C3: a fixed particle (fixed flag set, zero inverse mass) keeps
`inv_mass = 0` and its fixed flag across `step`, ends every step with zero
velocity, and its position is unchanged by the integration phase, by any
`Spring::solve` call, and by any `ShapeMatchingConstraint::solve` call. -/
theorem spec2_C3_fixed :
    (∀ (sim : Simulation) (dt : ℝ) (i : ℕ),
       (getP sim.particles i).is_fixed = true →
       (getP sim.particles i).inv_mass = 0 →
       (getP (sim.step dt).particles i).inv_mass = 0 ∧
       (getP (sim.step dt).particles i).is_fixed = true ∧
       (i < sim.particles.length → (getP (sim.step dt).particles i).vel = Vec2.mk 0 0)) ∧
    (∀ (g : Vec2) (dt : ℝ) (ps : List Particle) (i : ℕ),
       (getP ps i).is_fixed = true → posAt (integrate g dt ps) i = posAt ps i) ∧
    (∀ (s : Spring) (ps : List Particle) (i : ℕ), FixedAt ps i →
       posAt (s.solve ps) i = posAt ps i) ∧
    (∀ (c : ShapeMatchingConstraint) (ps : List Particle) (i : ℕ), FixedAt ps i →
       posAt (c.solve ps).2 i = posAt ps i) := by
  refine ⟨fun sim dt i hf hm => ?_, posFixed_integrate, posFixed_spring, posFixed_shapeSolve⟩
  have hstep := metaPres_step sim dt
  refine ⟨((hstep.2 i).1).trans hm, ((hstep.2 i).2.2).trans hf, fun hl => ?_⟩
  simp only [Simulation.step]
  have hpre := metaPres_trans (metaPres_integrate sim.config.gravity dt sim.particles)
    (metaPres_iterate sim.config sim.config.solver_iterations
      (integrate sim.config.gravity dt sim.particles, sim.soft_bodies))
  have hli : i < ((relaxOnce sim.config)^[sim.config.solver_iterations]
      (integrate sim.config.gravity dt sim.particles, sim.soft_bodies)).1.length := by
    rw [hpre.1]; exact hl
  simp only [velocityUpdate]
  rw [getP_map _ _ hli]
  have hfi : (getP ((relaxOnce sim.config)^[sim.config.solver_iterations]
      (integrate sim.config.gravity dt sim.particles, sim.soft_bodies)).1 i).is_fixed = true :=
    ((hpre.2 i).2.2).trans hf
  simp [hfi]

/-- C3 (witness): the fixed anchor of the demo simulation retains its zero
inverse mass and fixed flag, ends the step with zero velocity, and is
unmoved by integration, a spring solve, and a shape-matching solve. -/
theorem spec2_C3_witness :
    (getP demoSim.particles 0).is_fixed = true ∧
    (getP demoSim.particles 0).inv_mass = 0 ∧
    (getP (demoSim.step 1).particles 0).inv_mass = 0 ∧
    (getP (demoSim.step 1).particles 0).is_fixed = true ∧
    (getP (demoSim.step 1).particles 0).vel = Vec2.mk 0 0 ∧
    posAt (integrate (Vec2.mk 0 (-3)) 1 demoSim.particles) 0 = posAt demoSim.particles 0 ∧
    posAt ((Spring.mk 0 0 1 1).solve demoSim.particles) 0 = posAt demoSim.particles 0 ∧
    posAt ((ShapeMatchingConstraint.mk [0] 1 [Vec2.mk 0 0] (Vec2.mk 0 0)).solve
        demoSim.particles).2 0 = posAt demoSim.particles 0 := by
  have hf : (getP demoSim.particles 0).is_fixed = true := rfl
  have hm : (getP demoSim.particles 0).inv_mass = 0 := rfl
  have hl : (0 : ℕ) < demoSim.particles.length := by norm_num [demoSim]
  have h1 := spec2_C3_fixed.1 demoSim 1 0 hf hm
  exact ⟨hf, hm, h1.1, h1.2.1, h1.2.2 hl,
    spec2_C3_fixed.2.1 (Vec2.mk 0 (-3)) 1 demoSim.particles 0 hf,
    spec2_C3_fixed.2.2.1 (Spring.mk 0 0 1 1) demoSim.particles 0 ⟨hf, hm⟩,
    spec2_C3_fixed.2.2.2 (ShapeMatchingConstraint.mk [0] 1 [Vec2.mk 0 0] (Vec2.mk 0 0))
      demoSim.particles 0 ⟨hf, hm⟩⟩

/-- C10: the boundary clamp inside `step` applies to fixed particles too:
with bounds set and at least one solver iteration, a fixed particle's
position after `step` equals the per-axis clamp of its pre-step position,
and when it started outside the (non-empty) x interval the position is
actually changed. -/
theorem spec2_C10_clamp_fixed :
    ∀ (sim : Simulation) (dt : ℝ) (mn mx : Vec2) (i : ℕ),
      sim.config.bounds = some (mn, mx) →
      1 ≤ sim.config.solver_iterations →
      i < sim.particles.length →
      (getP sim.particles i).is_fixed = true →
      (getP sim.particles i).inv_mass = 0 →
      posAt (sim.step dt).particles i = clampPos mn mx (getP sim.particles i) ∧
      ((getP sim.particles i).pos.x < mn.x + (getP sim.particles i).radius →
        mn.x + (getP sim.particles i).radius ≤ mx.x - (getP sim.particles i).radius →
        posAt (sim.step dt).particles i ≠ (getP sim.particles i).pos) := by
  intro sim dt mn mx i hb hn hl hf hm
  have h : FixedAt sim.particles i := ⟨hf, hm⟩
  have hmain : posAt (sim.step dt).particles i = clampPos mn mx (getP sim.particles i) := by
    simp only [Simulation.step]
    rw [posAt_velUpdate]
    have hint := metaPres_integrate sim.config.gravity dt sim.particles
    have hfi : FixedAt (integrate sim.config.gravity dt sim.particles) i :=
      fixedAt_of_metaPres hint h
    have hli : i < (integrate sim.config.gravity dt sim.particles).length := by
      rw [hint.1]; exact hl
    rw [posFixed_iterate sim.config mn mx hb sim.config.solver_iterations hn
      (integrate sim.config.gravity dt sim.particles, sim.soft_bodies) i hfi hli]
    exact clampPos_congr mn mx (posFixed_integrate _ _ _ _ hf) ((hint.2 i).2.1)
  refine ⟨hmain, fun h1 h2 hc => ?_⟩
  rw [hmain] at hc
  have hx : clampR (getP sim.particles i).pos.x (mn.x + (getP sim.particles i).radius)
      (mx.x - (getP sim.particles i).radius) = (getP sim.particles i).pos.x :=
    congrArg Vec2.x hc
  rw [clampR, max_eq_right (le_of_lt h1), min_eq_left h2] at hx
  linarith

/-- C10 (witness): the demo anchor starts at `x = -5`, outside the x
interval `[1, 9]`, and the step moves it to the clamped position. -/
theorem spec2_C10_witness :
    demoSim.config.bounds = some (⟨0, 0⟩, ⟨10, 10⟩) ∧
    1 ≤ demoSim.config.solver_iterations ∧
    0 < demoSim.particles.length ∧
    (getP demoSim.particles 0).is_fixed = true ∧
    (getP demoSim.particles 0).inv_mass = 0 ∧
    (getP demoSim.particles 0).pos.x < (0 : ℝ) + (getP demoSim.particles 0).radius ∧
    (0 : ℝ) + (getP demoSim.particles 0).radius ≤
      (10 : ℝ) - (getP demoSim.particles 0).radius ∧
    posAt (demoSim.step 1).particles 0 =
      clampPos ⟨0, 0⟩ ⟨10, 10⟩ (getP demoSim.particles 0) ∧
    posAt (demoSim.step 1).particles 0 ≠ (getP demoSim.particles 0).pos := by
  have hl : (0 : ℕ) < demoSim.particles.length := by norm_num [demoSim]
  have h1 : (getP demoSim.particles 0).pos.x < (0 : ℝ) + (getP demoSim.particles 0).radius := by
    norm_num [demoSim, getP, Particle.new]
  have h2 : (0 : ℝ) + (getP demoSim.particles 0).radius ≤
      (10 : ℝ) - (getP demoSim.particles 0).radius := by
    norm_num [demoSim, getP, Particle.new]
  have hres := spec2_C10_clamp_fixed demoSim 1 ⟨0, 0⟩ ⟨10, 10⟩ 0 rfl (le_refl 1) hl rfl rfl
  exact ⟨rfl, le_refl 1, hl, rfl, rfl, h1, h2, hres.1, hres.2 h1 h2⟩

/-! ### Shape matching: folds versus mathematical sums -/

theorem apqFold_entries (ps : List Particle) (com : Vec2) (l : List (ℕ × Vec2)) (init : Mat2) :
    apqFold ps com l init = Mat2.mk
      ⟨init.c1.x + (l.map fun iq => ((getP ps iq.1).pos - com).x * iq.2.x).sum,
       init.c1.y + (l.map fun iq => ((getP ps iq.1).pos - com).y * iq.2.x).sum⟩
      ⟨init.c2.x + (l.map fun iq => ((getP ps iq.1).pos - com).x * iq.2.y).sum,
       init.c2.y + (l.map fun iq => ((getP ps iq.1).pos - com).y * iq.2.y).sum⟩ := by
  induction l generalizing init with
  | nil => ext <;> simp [apqFold]
  | cons hd tl ih =>
      rw [show apqFold ps com (hd :: tl) init = apqFold ps com tl
        (Mat2.mk ⟨init.c1.x + ((getP ps hd.1).pos - com).x * hd.2.x,
                  init.c1.y + ((getP ps hd.1).pos - com).y * hd.2.x⟩
                 ⟨init.c2.x + ((getP ps hd.1).pos - com).x * hd.2.y,
                  init.c2.y + ((getP ps hd.1).pos - com).y * hd.2.y⟩) from rfl, ih]
      ext <;> simp <;> ring

theorem apqFold_spec (ps : List Particle) (com : Vec2) (l : List (ℕ × Vec2)) :
    apqFold ps com l (Mat2.mk ⟨0, 0⟩ ⟨0, 0⟩) = apqSpec ps com l := by
  rw [apqFold_entries]
  ext <;> simp [apqSpec]

theorem calc_com_eq (c : ShapeMatchingConstraint) (ps : List Particle) :
    (c.calculate_center_of_mass ps).center_of_mass = comSpec c ps := by
  simp only [ShapeMatchingConstraint.calculate_center_of_mass, comSpec, totalMassSpec]
  rw [foldl_add_eq_sum, zero_add]
  by_cases h : (c.particle_indices.map fun i => massOf (getP ps i)).sum > EPSILON
  · rw [if_pos h, if_pos h]
    ext
    · rw [Vec2.smul_x, foldl_addv_x]
      simp
    · rw [Vec2.smul_y, foldl_addv_y]
      simp
  · rw [if_neg h, if_neg h]

theorem shapeApply_cons (com : Vec2) (r : Mat2) (st : ℝ) (hd : ℕ × Vec2) (tl : List (ℕ × Vec2))
    (ps : List Particle) :
    shapeApply com r st (hd :: tl) ps =
      shapeApply com r st tl
        (if (getP ps hd.1).is_fixed = true then ps
         else ps.set hd.1 { getP ps hd.1 with
           pos := (getP ps hd.1).pos + (com + r.mul_vec hd.2 - (getP ps hd.1).pos) * st }) := rfl

theorem getP_shapeApply_not_mem (com : Vec2) (r : Mat2) (st : ℝ) (l : List (ℕ × Vec2)) :
    ∀ (ps : List Particle) (i : ℕ), i ∉ l.map Prod.fst →
      getP (shapeApply com r st l ps) i = getP ps i := by
  induction l with
  | nil => exact fun ps i _ => rfl
  | cons hd tl ih =>
      intro ps i h
      rw [List.map_cons, List.mem_cons, not_or] at h
      rw [shapeApply_cons]
      by_cases hf : (getP ps hd.1).is_fixed = true
      · rw [if_pos hf]
        exact ih ps i h.2
      · rw [if_neg hf]
        exact (ih _ i h.2).trans (getP_set_ne ps (fun e => h.1 e.symm) _)

theorem posAt_shapeApply_mem (com : Vec2) (r : Mat2) (st : ℝ) (l : List (ℕ × Vec2)) :
    ∀ (ps : List Particle) (idx : ℕ) (q : Vec2), (idx, q) ∈ l →
      (l.map Prod.fst).Nodup → idx < ps.length →
      posAt (shapeApply com r st l ps) idx =
        if (getP ps idx).is_fixed = true then (getP ps idx).pos
        else (getP ps idx).pos + (com + r.mul_vec q - (getP ps idx).pos) * st := by
  induction l with
  | nil => exact fun ps idx q h _ _ => absurd h (List.not_mem_nil _)
  | cons hd tl ih =>
      intro ps idx q hmem hnd hval
      obtain ⟨j, qv⟩ := hd
      rw [List.map_cons, List.nodup_cons] at hnd
      rw [shapeApply_cons]
      rcases List.mem_cons.mp hmem with heq | htl
      · cases heq
        by_cases hf : (getP ps idx).is_fixed = true
        · rw [if_pos hf, if_pos hf]
          exact congrArg Particle.pos (getP_shapeApply_not_mem com r st tl ps idx hnd.1)
        · rw [if_neg hf, if_neg hf]
          rw [posAt, getP_shapeApply_not_mem com r st tl _ idx hnd.1, getP_set_self hval]
      · have hj : j ≠ idx := by
          intro e
          apply hnd.1
          show j ∈ List.map Prod.fst tl
          rw [e]
          exact List.mem_map.mpr ⟨(idx, q), htl, rfl⟩
        by_cases hf : (getP ps j).is_fixed = true
        · rw [if_pos hf]
          exact ih ps idx q htl hnd.2 hval
        · rw [if_neg hf]
          rw [ih _ idx q htl hnd.2 (by rw [List.length_set]; exact hval),
            getP_set_ne ps hj]

theorem solve_snd (c : ShapeMatchingConstraint) (ps : List Particle) :
    (c.solve ps).2 = shapeApply (c.calculate_center_of_mass ps).center_of_mass
      (apqFold ps (c.calculate_center_of_mass ps).center_of_mass
        (c.particle_indices.zip c.initial_shape)
        (Mat2.mk ⟨0, 0⟩ ⟨0, 0⟩)).polar_decomposition
      c.stiffness (c.particle_indices.zip c.initial_shape) ps := rfl

/-- C4: in `ShapeMatchingConstraint::solve`, the recomputed centroid is the
mass-weighted sum over all indexed particles (fixed ones included, with
weight `massOf`), the covariance `Apq` is the plain sum over all zipped
index/rest-offset pairs (fixed ones included), and the correction
`(com + R·q - pos) * stiffness` is applied exactly to the non-fixed
particles: a fixed particle's position is left unchanged by `solve`. -/
theorem spec2_C4_shape :
    ∀ (c : ShapeMatchingConstraint) (ps : List Particle),
      c.particle_indices.Nodup →
      c.particle_indices.length = c.initial_shape.length →
      ∀ idx q, (idx, q) ∈ c.particle_indices.zip c.initial_shape → idx < ps.length →
        (c.solve ps).1.center_of_mass = comSpec c ps ∧
        posAt (c.solve ps).2 idx =
          (if (getP ps idx).is_fixed = true then (getP ps idx).pos
           else (getP ps idx).pos +
             (comSpec c ps + ((apqSpec ps (comSpec c ps)
                 (c.particle_indices.zip c.initial_shape)).polar_decomposition).mul_vec q -
               (getP ps idx).pos) * c.stiffness) := by
  intro c ps hnd hlen idx q hmem hval
  have hcom := calc_com_eq c ps
  have hndz : ((c.particle_indices.zip c.initial_shape).map Prod.fst).Nodup := by
    rw [List.map_fst_zip _ _ (le_of_eq hlen)]
    exact hnd
  refine ⟨hcom, ?_⟩
  rw [solve_snd, hcom, apqFold_spec]
  exact posAt_shapeApply_mem _ _ _ _ ps idx q hmem hndz hval

/-- C4 (witness): in the demo shape group the fixed anchor at index 0 keeps
its position while the free particle at index 1 receives the shape
correction. -/
theorem spec2_C4_witness :
    demoShape.particle_indices.Nodup ∧
    demoShape.particle_indices.length = demoShape.initial_shape.length ∧
    (0, (⟨-1, 0⟩ : Vec2)) ∈ demoShape.particle_indices.zip demoShape.initial_shape ∧
    0 < demoShapeStore.length ∧
    (demoShape.solve demoShapeStore).1.center_of_mass = comSpec demoShape demoShapeStore ∧
    posAt (demoShape.solve demoShapeStore).2 0 =
      (if (getP demoShapeStore 0).is_fixed = true then (getP demoShapeStore 0).pos
       else (getP demoShapeStore 0).pos +
         (comSpec demoShape demoShapeStore +
           ((apqSpec demoShapeStore (comSpec demoShape demoShapeStore)
               (demoShape.particle_indices.zip
                 demoShape.initial_shape)).polar_decomposition).mul_vec ⟨-1, 0⟩ -
           (getP demoShapeStore 0).pos) * demoShape.stiffness) := by
  have hnd : demoShape.particle_indices.Nodup := by decide
  have hlen : demoShape.particle_indices.length = demoShape.initial_shape.length := rfl
  have hmem : (0, (⟨-1, 0⟩ : Vec2)) ∈
      demoShape.particle_indices.zip demoShape.initial_shape :=
    List.mem_cons_self _ _
  have hval : 0 < demoShapeStore.length := by simp [demoShapeStore]
  have h := spec2_C4_shape demoShape demoShapeStore hnd hlen 0 ⟨-1, 0⟩ hmem hval
  exact ⟨hnd, hlen, hmem, hval, h.1, h.2⟩

/-! ### Grid construction helpers -/

theorem flatMap_range_map_length {α : Type} (f : ℕ → ℕ → α) (r c : ℕ) :
    ((List.range r).flatMap (fun i => (List.range c).map (f i))).length = r * c := by
  induction r with
  | zero => simp
  | succ k ih =>
      rw [List.range_succ, List.flatMap_append, List.length_append, ih]
      simp [Nat.succ_mul]

theorem flatMap_range_map_getD {α : Type} (f : ℕ → ℕ → α) (r c : ℕ) (d : α) :
    ∀ i j : ℕ, i < r → j < c →
      ((List.range r).flatMap (fun i => (List.range c).map (f i))).getD (i * c + j) d
        = f i j := by
  induction r with
  | zero => omega
  | succ k ih =>
      intro i j hi hj
      rw [List.range_succ, List.flatMap_append]
      rcases Nat.lt_or_ge i k with h | h
      · rw [List.getD_append _ _ _ _ (by
          rw [flatMap_range_map_length]
          calc i * c + j < i * c + c := Nat.add_lt_add_left hj _
          _ = (i + 1) * c := by ring
          _ ≤ k * c := Nat.mul_le_mul_right c h)]
        exact ih i j h hj
      · have hik : i = k := by omega
        subst hik
        rw [List.getD_append_right _ _ _ _ (by
          rw [flatMap_range_map_length]; exact Nat.le_add_right _ _),
          flatMap_range_map_length, Nat.add_sub_cancel_left]
        simp only [List.flatMap_cons, List.flatMap_nil, List.append_nil]
        rw [List.getD_eq_getElem?_getD, List.getElem?_map, List.getElem?_range hj]
        rfl

theorem getP_append_left (ps qs : List Particle) (k : ℕ) (h : k < ps.length) :
    getP (ps ++ qs) k = getP ps k := by
  simp [getP, List.getD_eq_getElem?_getD, List.getElem?_append_left h]

theorem sum_map_const_nat {α : Type} (l : List α) (c : ℕ) :
    (l.map (fun _ => c)).sum = l.length * c := by
  induction l with
  | nil => simp
  | cons hd tl ih => simp [ih, Nat.succ_mul, Nat.add_comm]

theorem sum_map_ite_lt (n m c : ℕ) :
    ((List.range n).map (fun j => if j < m then c else 0)).sum = min n m * c := by
  induction n with
  | zero => simp
  | succ k ih =>
      rw [List.range_succ, List.map_append, List.sum_append, ih]
      by_cases h : k < m
      · have h1 : min k m = k := min_eq_left (le_of_lt h)
        have h2 : min (k + 1) m = k + 1 := min_eq_left h
        simp [h, h1, h2, Nat.succ_mul]
      · have h1 : min k m = m := min_eq_right (by omega)
        have h2 : min (k + 1) m = m := min_eq_right (by omega)
        simp [h, h1, h2]

theorem mem_ite_singleton {α : Type} (s a : α) (c : Prop) [Decidable c] :
    s ∈ (if c then [a] else []) ↔ c ∧ s = a := by
  split_ifs with h <;> simp [h]

theorem gridParticles_length (cfg : SoftBodyConfig) :
    (gridParticles cfg).length = cfg.rows * cfg.cols :=
  flatMap_range_map_length (gridParticle cfg) cfg.rows cfg.cols

theorem gridParticles_getP (cfg : SoftBodyConfig) (i j : ℕ) (hi : i < cfg.rows)
    (hj : j < cfg.cols) :
    getP (gridParticles cfg) (i * cfg.cols + j) = gridParticle cfg i j :=
  flatMap_range_map_getD (gridParticle cfg) cfg.rows cfg.cols _ i j hi hj

theorem length_flatMap_sum {α β : Type} (l : List α) (f : α → List β) (g : α → ℕ)
    (h : ∀ a ∈ l, (f a).length = g a) : (l.flatMap f).length = (l.map g).sum := by
  induction l with
  | nil => simp
  | cons hd tl ih =>
      simp [List.flatMap_cons, h hd (by simp), ih (fun a ha => h a (by simp [ha]))]

theorem gridSprings_length (cfg : SoftBodyConfig) (start : ℕ) (ps : List Particle)
    (h : 0 < cfg.stiffness) :
    (gridSprings cfg start ps).length =
      cfg.rows * (cfg.cols - 1) + (cfg.rows - 1) * cfg.cols := by
  rw [gridSprings, if_pos h,
    length_flatMap_sum _ _ (fun i => (cfg.cols - 1) + (if i < cfg.rows - 1 then cfg.cols else 0))
      (fun i _ => by
        rw [length_flatMap_sum _ _ (fun j => (if j < cfg.cols - 1 then 1 else 0) +
            (if i < cfg.rows - 1 then 1 else 0))
          (fun j _ => by rw [List.length_append]; congr 1 <;> split_ifs <;> simp)]
        rw [List.sum_map_add, sum_map_ite_lt, min_eq_right (Nat.sub_le _ _)]
        by_cases hr : i < cfg.rows - 1
        · simp [hr, sum_map_const_nat]
        · simp [hr])]
  rw [List.sum_map_add, sum_map_ite_lt, min_eq_right (Nat.sub_le _ _),
    sum_map_const_nat, List.length_range]

theorem gridSprings_mem (cfg : SoftBodyConfig) (start : ℕ) (ps : List Particle)
    (h : 0 < cfg.stiffness) (s : Spring) :
    s ∈ gridSprings cfg start ps ↔
      ∃ i j, i < cfg.rows ∧ j < cfg.cols ∧
        ((j < cfg.cols - 1 ∧ s = Spring.new (start + i * cfg.cols + j)
            (start + i * cfg.cols + (j + 1)) cfg.stiffness ps) ∨
         (i < cfg.rows - 1 ∧ s = Spring.new (start + i * cfg.cols + j)
            (start + (i + 1) * cfg.cols + j) cfg.stiffness ps)) := by
  rw [gridSprings, if_pos h]
  simp only [List.mem_flatMap, List.mem_append, List.mem_range, mem_ite_singleton]
  constructor
  · rintro ⟨i, hi, j, hj, hc⟩
    exact ⟨i, j, hi, hj, hc⟩
  · rintro ⟨i, j, hi, hj, hc⟩
    exact ⟨i, hi, j, hj, hc⟩

/-- C9: `add_soft_body` appends exactly `rows·cols` particles (existing ones
untouched) laid out row-major on the evenly spaced grid with per-axis spacing
`size/(count-1)` (or 0 for a single row/column), gives every particle the
configured radius and — when `is_fixed` — the fixed flag with zero inverse
mass regardless of `particle_inv_mass`; when `stiffness > 0` the new body's
spring list has one spring per right-neighbor pair and one per
bottom-neighbor pair (count `rows·(cols-1) + (rows-1)·cols`, every spring of
one of those two forms, every neighbor pair present, no diagonals), and when
`stiffness ≤ 0` there are no springs. -/
theorem spec2_C9_grid :
    ∀ (sim : Simulation) (cfg : SoftBodyConfig),
      1 ≤ cfg.rows → 1 ≤ cfg.cols →
      (sim.add_soft_body cfg).particles.length =
        sim.particles.length + cfg.rows * cfg.cols ∧
      (∀ k, k < sim.particles.length →
        getP (sim.add_soft_body cfg).particles k = getP sim.particles k) ∧
      (∀ i j, i < cfg.rows → j < cfg.cols →
        getP (sim.add_soft_body cfg).particles
          (sim.particles.length + (i * cfg.cols + j)) = gridParticle cfg i j) ∧
      (∀ i j,
        (gridParticle cfg i j).pos.x =
          cfg.center.x - cfg.size.x * 0.5 + (j : ℝ) * spacingX cfg ∧
        (gridParticle cfg i j).pos.y =
          cfg.center.y - cfg.size.y * 0.5 + (i : ℝ) * spacingY cfg ∧
        (gridParticle cfg i j).radius = cfg.particle_radius ∧
        (cfg.is_fixed = true →
          (gridParticle cfg i j).is_fixed = true ∧ (gridParticle cfg i j).inv_mass = 0) ∧
        (cfg.is_fixed = false →
          (gridParticle cfg i j).is_fixed = false ∧
          (gridParticle cfg i j).inv_mass = cfg.particle_inv_mass)) ∧
      (∃ sb : SoftBody, (sim.add_soft_body cfg).soft_bodies = sim.soft_bodies ++ [sb] ∧
        sb.springs =
          gridSprings cfg sim.particles.length (sim.add_soft_body cfg).particles) ∧
      (cfg.stiffness ≤ 0 →
        gridSprings cfg sim.particles.length (sim.add_soft_body cfg).particles = []) ∧
      (0 < cfg.stiffness →
        (gridSprings cfg sim.particles.length (sim.add_soft_body cfg).particles).length =
          cfg.rows * (cfg.cols - 1) + (cfg.rows - 1) * cfg.cols ∧
        (∀ s ∈ gridSprings cfg sim.particles.length (sim.add_soft_body cfg).particles,
          ∃ i j, i < cfg.rows ∧ j < cfg.cols ∧
            ((j + 1 < cfg.cols ∧ s = Spring.new (sim.particles.length + i * cfg.cols + j)
                (sim.particles.length + i * cfg.cols + (j + 1)) cfg.stiffness
                (sim.add_soft_body cfg).particles) ∨
             (i + 1 < cfg.rows ∧ s = Spring.new (sim.particles.length + i * cfg.cols + j)
                (sim.particles.length + (i + 1) * cfg.cols + j) cfg.stiffness
                (sim.add_soft_body cfg).particles))) ∧
        (∀ i j, i < cfg.rows → j + 1 < cfg.cols →
          Spring.new (sim.particles.length + i * cfg.cols + j)
              (sim.particles.length + i * cfg.cols + (j + 1)) cfg.stiffness
              (sim.add_soft_body cfg).particles ∈
            gridSprings cfg sim.particles.length (sim.add_soft_body cfg).particles) ∧
        (∀ i j, i + 1 < cfg.rows → j < cfg.cols →
          Spring.new (sim.particles.length + i * cfg.cols + j)
              (sim.particles.length + (i + 1) * cfg.cols + j) cfg.stiffness
              (sim.add_soft_body cfg).particles ∈
            gridSprings cfg sim.particles.length (sim.add_soft_body cfg).particles)) := by
  intro sim cfg hr hc
  have hparts : (sim.add_soft_body cfg).particles = sim.particles ++ gridParticles cfg := rfl
  refine ⟨?_, ?_, ?_, ?_, ⟨_, rfl, rfl⟩, ?_, ?_⟩
  · rw [hparts, List.length_append, gridParticles_length]
  · intro k hk
    rw [hparts]
    exact getP_append_left sim.particles (gridParticles cfg) k hk
  · intro i j hi hj
    rw [hparts, getP_append_right sim.particles (gridParticles cfg) (i * cfg.cols + j)
      (by rw [gridParticles_length]
          calc i * cfg.cols + j < i * cfg.cols + cfg.cols := Nat.add_lt_add_left hj _
          _ = (i + 1) * cfg.cols := by ring
          _ ≤ cfg.rows * cfg.cols := Nat.mul_le_mul_right cfg.cols hi)]
    exact gridParticles_getP cfg i j hi hj
  · intro i j
    by_cases hf : cfg.is_fixed = true <;>
      simp [gridParticle, Particle.new, hf]
  · intro hs
    rw [gridSprings, if_neg (not_lt.mpr hs)]
  · intro hs
    refine ⟨gridSprings_length cfg _ _ hs, ?_, ?_, ?_⟩
    · intro s hmem
      obtain ⟨i, j, hi, hj, hor⟩ := (gridSprings_mem cfg _ _ hs s).mp hmem
      refine ⟨i, j, hi, hj, ?_⟩
      rcases hor with ⟨hcond, he⟩ | ⟨hcond, he⟩
      · exact Or.inl ⟨by omega, he⟩
      · exact Or.inr ⟨by omega, he⟩
    · intro i j hi hj
      exact (gridSprings_mem cfg _ _ hs _).mpr ⟨i, j, hi, by omega, Or.inl ⟨by omega, rfl⟩⟩
    · intro i j hi hj
      exact (gridSprings_mem cfg _ _ hs _).mpr ⟨i, j, by omega, hj, Or.inr ⟨by omega, rfl⟩⟩

/-- C9 (witness): adding a 2×2 body to the empty simulation yields exactly
four particles, and the right-neighbor spring of the top-left cell exists. -/
theorem spec2_C9_witness :
    1 ≤ gridCfg.rows ∧ 1 ≤ gridCfg.cols ∧
    (emptySim.add_soft_body gridCfg).particles.length =
      emptySim.particles.length + gridCfg.rows * gridCfg.cols ∧
    (0 < gridCfg.stiffness →
      (gridSprings gridCfg emptySim.particles.length
          (emptySim.add_soft_body gridCfg).particles).length =
        gridCfg.rows * (gridCfg.cols - 1) + (gridCfg.rows - 1) * gridCfg.cols) := by
  have h := spec2_C9_grid emptySim gridCfg (by norm_num [gridCfg]) (by norm_num [gridCfg])
  exact ⟨by norm_num [gridCfg], by norm_num [gridCfg], h.1,
    fun hs => (h.2.2.2.2.2.2 hs).1⟩

end

end PBD
